import Mathlib

/-! The load-coordination layer of `MemCache` (package `inmemcache`).

A shallow embedding of `inmemcache.go`.  The two Go maps of `MemCache`
(`mpLoading`, `failCount`) are total functions into `Option Int`; the mutex is
modelled by making every lock-guarded helper one atomic step; the `gcache`
store is an interface record over an arbitrary store state; `Get`, `Delete`
and `Has` are small-step machines whose steps are the atomic actions of the
source, so that both sequential runs and arbitrary interleavings can be
stated over the same definitions.
-/

namespace InMemCache

/-! ## Data model -/

/-- Cache keys: Go `string`. -/
abbrev Key := String

/-- Go `time.Duration` (an `int64` count of nanoseconds; never computed with here). -/
abbrev Duration := Int

/-- Go `interface{}` values handed around by the cache: `nil` or some payload. -/
inductive Value where
  | nil
  | data (payload : Nat)
  deriving DecidableEq

/-- Go `error` values; the nil error is `Option.none`.
`KeyNotFoundError` is the sentinel `gcache.KeyNotFoundError`. -/
inductive Error where
  | KeyNotFoundError
  | other (code : Nat)
  deriving DecidableEq

/-- Width of Go `int` on 64-bit targets. -/
def intBits : Nat := 64

/-- Wrap-around of a mathematical integer into the range of Go `int`. -/
def wrapInt (x : Int) : Int := (x + 2 ^ (intBits - 1)) % 2 ^ intBits - 2 ^ (intBits - 1)

/-- Largest Go `int`. -/
def maxInt : Int := 2 ^ (intBits - 1) - 1

/-- Smallest Go `int`. -/
def minInt : Int := -2 ^ (intBits - 1)

/-- What a call of a `DATALOADER` does: it returns its three results, or it panics. -/
inductive LoaderResult where
  | ret (data : Value) (d : Duration) (err : Option Error)
  | panic
  deriving DecidableEq

/-- `type DATALOADER func(nFail int) (interface{}, time.Duration, error)`. -/
abbrev DATALOADER := Int → LoaderResult

/-- The methods of `gcache.Cache` that `MemCache` calls, over a store state `σ`.
The store is external to the repository and is a parameter of the model:
`Get` returns `(value, err)` together with the store state it leaves behind
(recency bookkeeping, purged entries); the results of `SetWithExpire` and
`Remove` are ignored by the source and therefore omitted. -/
structure GCache (σ : Type) where
  New : Int → σ
  Get : σ → Key → (Value × Option Error) × σ
  SetWithExpire : σ → Key → Value → Duration → σ
  Remove : σ → Key → σ
  Has : σ → Key → Bool

/-- `type MemCache struct`: the two maps and the store (the mutex is implicit:
each helper below is one atomic step). -/
structure MemCache (σ : Type) where
  mpLoading : Key → Option Int
  failCount : Key → Option Int
  cache : σ

/-- Observable actions, recorded in order: calls issued to the store and
invocations of a loader (with the `nFail` argument passed). -/
inductive Event where
  | storeGet (k : Key)
  | storeSet (k : Key) (v : Value) (d : Duration)
  | storeRemove (k : Key)
  | storeHas (k : Key)
  | loaderCall (k : Key) (nFail : Int)
  deriving DecidableEq

/-- A cache together with the record of the actions performed on it so far. -/
structure Sys (σ : Type) where
  t : MemCache σ
  log : List Event

/-- `func NewMemCache(size int) *MemCache`. -/
def NewMemCache {σ : Type} (ops : GCache σ) (size : Int) : MemCache σ :=
  { mpLoading := fun _ => none
    failCount := fun _ => none
    cache := ops.New size }

/-! ## The lock-guarded helpers -/

/-- `_setKeyLoadingIfNotExist`: creates the entry with value 0 when there is
none and reports whether it did. -/
def MemCache._setKeyLoadingIfNotExist {σ : Type} (t : MemCache σ) (szKey : Key) :
    Bool × MemCache σ :=
  match t.mpLoading szKey with
  | none => (true, { t with mpLoading := Function.update t.mpLoading szKey (some 0) })
  | some _ => (false, t)

/-- `_delKeyLoading`: `delete(t.mpLoading, szKey)`. -/
def MemCache._delKeyLoading {σ : Type} (t : MemCache σ) (szKey : Key) : MemCache σ :=
  { t with mpLoading := Function.update t.mpLoading szKey none }

/-- `_setKeyNeedReLoadIfInLoading`: sets an existing entry to 1. -/
def MemCache._setKeyNeedReLoadIfInLoading {σ : Type} (t : MemCache σ) (szKey : Key) :
    MemCache σ :=
  match t.mpLoading szKey with
  | some _ => { t with mpLoading := Function.update t.mpLoading szKey (some 1) }
  | none => t

/-- `_readKeyLoading`: the entry, or -1 when there is none. -/
def MemCache._readKeyLoading {σ : Type} (t : MemCache σ) (szKey : Key) : Int :=
  match t.mpLoading szKey with
  | some n => n
  | none => -1

/-- `_getFailCount`: the stored count, or 0 when there is none. -/
def MemCache._getFailCount {σ : Type} (t : MemCache σ) (szKey : Key) : Int :=
  match t.failCount szKey with
  | some nCount => nCount
  | none => 0

/-- `_addFailCount`: `nCount + 1` (in Go `int` arithmetic), or 1 for a new entry. -/
def MemCache._addFailCount {σ : Type} (t : MemCache σ) (szKey : Key) : MemCache σ :=
  match t.failCount szKey with
  | some nCount =>
    { t with failCount := Function.update t.failCount szKey (some (wrapInt (nCount + 1))) }
  | none => { t with failCount := Function.update t.failCount szKey (some 1) }

/-- `_delFailCount`: `delete(t.failCount, szKey)`. -/
def MemCache._delFailCount {σ : Type} (t : MemCache σ) (szKey : Key) : MemCache σ :=
  { t with failCount := Function.update t.failCount szKey none }

/-! ## `Get` as a machine of atomic steps -/

/-- How a call of `Get` ends: with its two results, or by propagating a panic
of the loader. -/
inductive GetReturn where
  | ret (v : Value) (err : Option Error)
  | panic
  deriving DecidableEq

/-- Control points of `Get`; each names the atomic action about to be
performed and carries the live local variables. -/
inductive GetPc where
  /-- line 32: `t.cache.Get(szKey)`, then the tests of lines 33 and 37 -/
  | probe
  /-- line 41: `t._setKeyLoadingIfNotExist(szKey)` -/
  | acquire
  /-- line 45: `time.Sleep`, then back to line 32 -/
  | sleep
  /-- line 54: `t._getFailCount(szKey)` (line 48 has registered the deferred release) -/
  | getFail
  /-- line 56: the loader is about to be invoked with `nFail` -/
  | callLoader (nFail : Int)
  /-- line 56: the loader is executing -/
  | inLoader (nFail : Int)
  /-- line 58: `t._addFailCount(szKey)` -/
  | addFail (err : Error)
  /-- line 63: `t._delFailCount(szKey)` -/
  | delFail (data : Value) (d : Duration)
  /-- line 66: `t._readKeyLoading(szKey)` -/
  | readLoading (data : Value) (d : Duration)
  /-- line 67: `t.cache.SetWithExpire(szKey, data, d)` -/
  | commit (data : Value) (d : Duration)
  /-- line 48, deferred: `t._delKeyLoading(szKey)`, run on every exit of the fill section -/
  | release (r : GetReturn)
  /-- the call has returned -/
  | done (r : GetReturn)
  deriving DecidableEq

/-- One atomic step of `Get(szKey, fnLoader)`. -/
def MemCache.Get.step {σ : Type} (ops : GCache σ) (szKey : Key) (fnLoader : DATALOADER)
    (pc : GetPc) (s : Sys σ) : GetPc × Sys σ :=
  match pc with
  | .probe =>
    let r := ops.Get s.t.cache szKey
    let s1 : Sys σ := ⟨{ s.t with cache := r.2 }, s.log ++ [.storeGet szKey]⟩
    match r.1.2 with
    | none => (.done (.ret r.1.1 none), s1)
    | some err =>
      if err ≠ .KeyNotFoundError then (.done (.ret .nil (some err)), s1) else (.acquire, s1)
  | .acquire =>
    let r := s.t._setKeyLoadingIfNotExist szKey
    (if r.1 then .getFail else .sleep, ⟨r.2, s.log⟩)
  | .sleep => (.probe, s)
  | .getFail => (.callLoader (s.t._getFailCount szKey), s)
  | .callLoader nFail => (.inLoader nFail, ⟨s.t, s.log ++ [.loaderCall szKey nFail]⟩)
  | .inLoader nFail =>
    match fnLoader nFail with
    | .panic => (.release .panic, s)
    | .ret _ _ (some err) => (.addFail err, s)
    | .ret data d none => if nFail > 0 then (.delFail data d, s) else (.readLoading data d, s)
  | .addFail err => (.release (.ret .nil (some err)), ⟨s.t._addFailCount szKey, s.log⟩)
  | .delFail data d => (.readLoading data d, ⟨s.t._delFailCount szKey, s.log⟩)
  | .readLoading data d =>
    if s.t._readKeyLoading szKey ≠ 1 then (.commit data d, s) else (.release (.ret data none), s)
  | .commit data d =>
    (.release (.ret data none),
      ⟨{ s.t with cache := ops.SetWithExpire s.t.cache szKey data d },
        s.log ++ [.storeSet szKey data d]⟩)
  | .release r => (.done r, ⟨s.t._delKeyLoading szKey, s.log⟩)
  | .done r => (.done r, s)

/-- Runs `Get` alone from control point `pc` for at most `fuel` steps. -/
def MemCache.Get.run {σ : Type} (ops : GCache σ) (szKey : Key) (fnLoader : DATALOADER) :
    Nat → GetPc → Sys σ → Option (GetReturn × Sys σ)
  | _, .done r, s => some (r, s)
  | 0, _, _ => none
  | fuel + 1, pc, s =>
    MemCache.Get.run ops szKey fnLoader fuel (MemCache.Get.step ops szKey fnLoader pc s).1
      (MemCache.Get.step ops szKey fnLoader pc s).2

/-- `func (t *MemCache) Get(szKey string, fnLoader DATALOADER) (interface{}, error)`,
run without interleaved calls; `none` when the call has not returned within
`fuel` steps (the waiting loop of lines 31-46 need not end). -/
def MemCache.Get {σ : Type} (ops : GCache σ) (fuel : Nat) (szKey : Key) (fnLoader : DATALOADER)
    (s : Sys σ) : Option (GetReturn × Sys σ) :=
  MemCache.Get.run ops szKey fnLoader fuel .probe s

/-! ## `Delete` and `Has` -/

/-- Control points of `Delete`. -/
inductive DeletePc where
  /-- line 78: `t._setKeyNeedReLoadIfInLoading(szKey)` -/
  | setNeedReLoad
  /-- line 79: `t.cache.Remove(szKey)` -/
  | remove
  | done
  deriving DecidableEq

/-- One atomic step of `Delete(szKey)`. -/
def MemCache.Delete.step {σ : Type} (ops : GCache σ) (szKey : Key) (pc : DeletePc) (s : Sys σ) :
    DeletePc × Sys σ :=
  match pc with
  | .setNeedReLoad => (.remove, ⟨s.t._setKeyNeedReLoadIfInLoading szKey, s.log⟩)
  | .remove =>
    (.done, ⟨{ s.t with cache := ops.Remove s.t.cache szKey }, s.log ++ [.storeRemove szKey]⟩)
  | .done => (.done, s)

/-- `func (t *MemCache) Delete(szKey string)`, run without interleaved calls. -/
def MemCache.Delete {σ : Type} (ops : GCache σ) (szKey : Key) (s : Sys σ) : Sys σ :=
  (MemCache.Delete.step ops szKey .remove
    (MemCache.Delete.step ops szKey .setNeedReLoad s).2).2

/-- Control points of `Has`. -/
inductive HasPc where
  /-- line 74: `t.cache.Has(szKey)` -/
  | call
  | done (b : Bool)
  deriving DecidableEq

/-- One atomic step of `Has(szKey)`. -/
def MemCache.Has.step {σ : Type} (ops : GCache σ) (szKey : Key) (pc : HasPc) (s : Sys σ) :
    HasPc × Sys σ :=
  match pc with
  | .call => (.done (ops.Has s.t.cache szKey), ⟨s.t, s.log ++ [.storeHas szKey]⟩)
  | .done b => (.done b, s)

/-- `func (t *MemCache) Has(szKey string) bool`. -/
def MemCache.Has {σ : Type} (ops : GCache σ) (szKey : Key) (s : Sys σ) : Bool × Sys σ :=
  (ops.Has s.t.cache szKey, (MemCache.Has.step ops szKey .call s).2)

/-! ## Concurrent calls -/

/-- A call made on the cache by some goroutine. -/
inductive Call where
  | Get (szKey : Key) (fnLoader : DATALOADER)
  | Delete (szKey : Key)
  | Has (szKey : Key)

/-- A goroutine executing one call, at some control point. -/
inductive Thread where
  | get (szKey : Key) (fnLoader : DATALOADER) (pc : GetPc)
  | delete (szKey : Key) (pc : DeletePc)
  | has (szKey : Key) (pc : HasPc)

/-- The goroutine about to begin a call. -/
def Call.start : Call → Thread
  | .Get k f => .get k f .probe
  | .Delete k => .delete k .setNeedReLoad
  | .Has k => .has k .call

/-- One atomic step of a goroutine (a finished one stays as it is). -/
def Thread.step {σ : Type} (ops : GCache σ) (th : Thread) (s : Sys σ) : Thread × Sys σ :=
  match th with
  | .get k f pc => (.get k f (MemCache.Get.step ops k f pc s).1, (MemCache.Get.step ops k f pc s).2)
  | .delete k pc => (.delete k (MemCache.Delete.step ops k pc s).1, (MemCache.Delete.step ops k pc s).2)
  | .has k pc => (.has k (MemCache.Has.step ops k pc s).1, (MemCache.Has.step ops k pc s).2)

/-- The shared cache and the goroutines calling it. -/
structure Config (σ : Type) where
  sys : Sys σ
  threads : List Thread

/-- The goroutine numbered `i` takes one step (nothing happens when there is none). -/
def Config.stepAt {σ : Type} (ops : GCache σ) (c : Config σ) (i : Nat) : Config σ :=
  match c.threads[i]? with
  | none => c
  | some th => ⟨(th.step ops c.sys).2, c.threads.set i (th.step ops c.sys).1⟩

/-- Runs an interleaving: `sched` lists, in order, which goroutine takes each step. -/
def Config.runSchedule {σ : Type} (ops : GCache σ) (c : Config σ) (sched : List Nat) : Config σ :=
  sched.foldl (Config.stepAt ops) c

/-- The calls `calls`, none begun yet, on a cache just built by `NewMemCache`. -/
def Config.init {σ : Type} (ops : GCache σ) (size : Int) (calls : List Call) : Config σ :=
  ⟨⟨NewMemCache ops size, []⟩, calls.map Call.start⟩

/-- Whether a `Get` at control point `pc` is inside its fill section: after its
`_setKeyLoadingIfNotExist` returned true and before its deferred
`_delKeyLoading` has run. -/
def GetPc.inFill : GetPc → Bool
  | .probe | .acquire | .sleep | .done _ => false
  | .getFail | .callLoader _ | .inLoader _ | .addFail _ | .delFail _ _ | .readLoading _ _
  | .commit _ _ | .release _ => true

/-- Whether a goroutine is a `Get` inside its fill section for `k`. -/
def Thread.inFill (k : Key) : Thread → Bool
  | .get k' _ pc => decide (k' = k) && pc.inFill
  | _ => false

/-- Whether a goroutine has returned from its call. -/
def Thread.finished : Thread → Bool
  | .get _ _ (.done _) => true
  | .delete _ .done => true
  | .has _ (.done _) => true
  | _ => false

/-- The control point of a goroutine executing `Get`. -/
def Thread.getPc : Thread → Option GetPc
  | .get _ _ pc => some pc
  | _ => none

/-- The result of a goroutine that has returned from `Get`. -/
def Thread.result : Thread → Option GetReturn
  | .get _ _ (.done r) => some r
  | _ => none

/-- The `nFail` arguments of the loader invocations for `k`, in order. -/
def loaderArgs (k : Key) (log : List Event) : List Int :=
  log.filterMap fun e =>
    match e with
    | .loaderCall k' n => if k' = k then some n else none
    | _ => none

/-- The `(value, ttl)` pairs written for `k` by `SetWithExpire`, in order. -/
def storeWrites (k : Key) (log : List Event) : List (Value × Duration) :=
  log.filterMap fun e =>
    match e with
    | .storeSet k' v d => if k' = k then some (v, d) else none
    | _ => none

/-- Runs the calls `Get(szKey, f)`, for `f` in the list, one after the other. -/
def seqGets {σ : Type} (ops : GCache σ) (fuel : Nat) (szKey : Key) :
    List DATALOADER → Sys σ → Option (Sys σ)
  | [], s => some s
  | f :: fs, s =>
    match MemCache.Get ops fuel szKey f s with
    | none => none
    | some x => seqGets ops fuel szKey fs x.2

/-- A loader that returns a non-nil error whatever `nFail` it is given. -/
def AlwaysFails (f : DATALOADER) : Prop :=
  ∀ nFail, ∃ data d e, f nFail = .ret data d (some e)

/-- A loader that returns a nil error whatever `nFail` it is given. -/
def AlwaysSucceeds (f : DATALOADER) : Prop :=
  ∀ nFail, ∃ data d, f nFail = .ret data d none

/-- The invariant behind mutual exclusion of fills, for key `k`: at most one
goroutine is inside its fill section for `k`, and while one is, `mpLoading`
has an entry for `k`. -/
def FillInv {σ : Type} (k : Key) (c : Config σ) : Prop :=
  (∀ (i j : Nat) (ti tj : Thread), c.threads[i]? = some ti → c.threads[j]? = some tj →
    ti.inFill k = true → tj.inFill k = true → i = j) ∧
  (∀ (i : Nat) (ti : Thread), c.threads[i]? = some ti → ti.inFill k = true →
    c.sys.t.mpLoading k ≠ none)

/-! ## A store that retains what is written -/

/-- Modelled from the spec: the Store (the `gcache` LRU cache, which is not part
of this repository) as a map that retains what is written until it is
removed: `Get` of an absent key reports `KeyNotFoundError`, no entry expires
and none is evicted. -/
def MapStore : GCache (Key → Option (Value × Duration)) where
  New := fun _ _ => none
  Get := fun c k =>
    match c k with
    | some e => ((e.1, none), c)
    | none => ((.nil, some .KeyNotFoundError), c)
  SetWithExpire := fun c k v d => Function.update c k (some (v, d))
  Remove := fun c k => Function.update c k none
  Has := fun c k => (c k).isSome

/-! ## Concrete inputs -/

/-- A loader that always succeeds, with value 7 and a TTL of 5. -/
def okLoader : DATALOADER := fun _ => .ret (.data 7) 5 none

/-- A loader that always fails. -/
def errLoader : DATALOADER := fun _ => .ret .nil 0 (some (.other 1))

/-- A cache just built by `NewMemCache(100)` over `MapStore`. -/
def freshSys : Sys (Key → Option (Value × Duration)) := ⟨NewMemCache MapStore 100, []⟩

/-- The fresh cache with the fail count of `"k"` set to `n`. -/
def failSys (n : Int) : Sys (Key → Option (Value × Duration)) :=
  ⟨{ NewMemCache MapStore 100 with failCount := Function.update (fun _ => none) "k" (some n) }, []⟩

/-- The fresh cache with `"k"` cached as value 7. -/
def hitSys : Sys (Key → Option (Value × Duration)) :=
  ⟨{ NewMemCache MapStore 100 with cache := Function.update (fun _ => none) "k" (some (.data 7, 5)) },
    []⟩

/-- Two concurrent `Get("k", okLoader)` calls on the fresh cache: both probe the
store and miss; goroutine 0 then fills, commits and releases the token; only
then does goroutine 1 ask for the token. -/
def twoGetsRun : Config (Key → Option (Value × Duration)) :=
  Config.runSchedule MapStore
    (Config.init MapStore 100 [.Get "k" okLoader, .Get "k" okLoader])
    [0, 1, 0, 0, 0, 0, 0, 0, 0, 1, 1, 1, 1, 1, 1, 1]

/-- `Get("k", okLoader)` and `Delete("k")` on the fresh cache, after the owner
has probed, taken the token, loaded, and read its entry (still 0) at line 66. -/
def staleRunRead : Config (Key → Option (Value × Duration)) :=
  Config.runSchedule MapStore
    (Config.init MapStore 100 [.Get "k" okLoader, .Delete "k"]) [0, 0, 0, 0, 0, 0]

/-- Then `Delete("k")` runs from start to end. -/
def staleRunDeleted : Config (Key → Option (Value × Duration)) :=
  Config.runSchedule MapStore staleRunRead [1, 1]

/-- Then the owner performs line 67 and releases the token. -/
def staleRunEnd : Config (Key → Option (Value × Duration)) :=
  Config.runSchedule MapStore staleRunDeleted [0, 0]

/-- A store whose `Get` fails with an error other than `KeyNotFoundError`. -/
def faultyStore : GCache Unit where
  New := fun _ => ()
  Get := fun c _ => ((.nil, some (.other 2)), c)
  SetWithExpire := fun c _ _ _ => c
  Remove := fun c _ => c
  Has := fun _ _ => false

/-- The fresh cache with the token of `"k"` taken (entry 0) and nobody to release it. -/
def heldSys : Sys (Key → Option (Value × Duration)) :=
  ⟨{ NewMemCache MapStore 100 with mpLoading := Function.update (fun _ => none) "k" (some 0) }, []⟩

/-! ## Invariants of interleaved runs -/

/-- The configuration reached from `NewMemCache(size)` when the calls `calls`
are interleaved as `sched` says. -/
def Config.reached {σ : Type} (ops : GCache σ) (size : Int) (calls : List Call)
    (sched : List Nat) : Config σ :=
  Config.runSchedule ops (Config.init ops size calls) sched

/-- Whether the step that goroutine `th` is about to take is an
`_addFailCount` applied to the largest `int`. -/
def Thread.overflows {σ : Type} (th : Thread) (s : Sys σ) : Bool :=
  match th with
  | .get k _ (.addFail _) => decide (s.t.failCount k = some maxInt)
  | _ => false

/-- Whether no step of the interleaving `sched`, run from `c`, overflows a fail count. -/
def Config.noOverflow {σ : Type} (ops : GCache σ) : Config σ → List Nat → Bool
  | _, [] => true
  | c, i :: rest =>
    (match c.threads[i]? with
      | some th => !th.overflows c.sys
      | none => true) && Config.noOverflow ops (Config.stepAt ops c i) rest

/-- Every value stored in `failCount` is at least 1 and at most `bound`. -/
def FailVals {σ : Type} (bound : Int) (c : Config σ) : Prop :=
  ∀ (k : Key) (v : Int), c.sys.t.failCount k = some v → 1 ≤ v ∧ v ≤ bound

/-- Every value stored in `mpLoading` is 0 or 1. -/
def LoadVals {σ : Type} (c : Config σ) : Prop :=
  ∀ (k : Key) (v : Int), c.sys.t.mpLoading k = some v → v = 0 ∨ v = 1

/-- Over `MapStore`: a key the store holds has been written by a `SetWithExpire`
recorded in the log. -/
def StoreInv (c : Config (Key → Option (Value × Duration))) : Prop :=
  ∀ k : Key, c.sys.t.cache k ≠ none → storeWrites k c.sys.log ≠ []

/-- A run of `Get` alone from `pc` returns within `n` steps and leaves
`mpLoading` without an entry for the key. -/
def Get.ExitsReleased {σ : Type} (ops : GCache σ) (k : Key) (f : DATALOADER) (n : Nat)
    (pc : GetPc) (s : Sys σ) : Prop :=
  ∃ (r : GetReturn) (s' : Sys σ),
    (∀ fuel, n ≤ fuel → MemCache.Get.run ops k f fuel pc s = some (r, s')) ∧
    s'.t.mpLoading k = none

/-! ## Running `Get` alone -/

theorem Get.run_done {σ : Type} (ops : GCache σ) (k : Key) (f : DATALOADER) (fuel : Nat)
    (r : GetReturn) (s : Sys σ) :
    MemCache.Get.run ops k f fuel (.done r) s = some (r, s) := by
  cases fuel <;> simp [MemCache.Get.run]

theorem Get.run_succ {σ : Type} (ops : GCache σ) (k : Key) (f : DATALOADER) (fuel : Nat)
    (pc : GetPc) (s : Sys σ) (h : ∀ r, pc ≠ .done r) :
    MemCache.Get.run ops k f (fuel + 1) pc s =
      MemCache.Get.run ops k f fuel (MemCache.Get.step ops k f pc s).1
        (MemCache.Get.step ops k f pc s).2 := by
  cases pc <;> simp [MemCache.Get.run] at h ⊢

/-- More fuel does not change the result of a run that has returned. -/
theorem Get.run_mono {σ : Type} (ops : GCache σ) (k : Key) (f : DATALOADER) (m : Nat) :
    ∀ (fuel : Nat) (pc : GetPc) (s : Sys σ) (x : GetReturn × Sys σ),
      MemCache.Get.run ops k f fuel pc s = some x →
      MemCache.Get.run ops k f (fuel + m) pc s = some x := by
  intro fuel
  induction fuel with
  | zero =>
    intro pc s x h
    cases pc <;> simp [MemCache.Get.run] at h
    subst h
    exact Get.run_done ops k f _ _ _
  | succ n ih =>
    intro pc s x h
    by_cases hd : ∃ r, pc = .done r
    · obtain ⟨r, rfl⟩ := hd
      rw [Get.run_done] at h ⊢
      exact h
    · have hd' : ∀ r, pc ≠ .done r := fun r hr => hd ⟨r, hr⟩
      rw [Get.run_succ ops k f n pc s hd'] at h
      rw [show n + 1 + m = (n + m) + 1 by omega, Get.run_succ ops k f (n + m) pc s hd']
      exact ih _ _ _ h

theorem Get.run_le {σ : Type} (ops : GCache σ) (k : Key) (f : DATALOADER) (n fuel : Nat)
    (pc : GetPc) (s : Sys σ) (x : GetReturn × Sys σ)
    (h : MemCache.Get.run ops k f n pc s = some x) (hle : n ≤ fuel) :
    MemCache.Get.run ops k f fuel pc s = some x := by
  obtain ⟨m, rfl⟩ := Nat.exists_eq_add_of_le hle
  exact Get.run_mono ops k f m n pc s x h

theorem loaderArgs_append (k : Key) (l₁ l₂ : List Event) :
    loaderArgs k (l₁ ++ l₂) = loaderArgs k l₁ ++ loaderArgs k l₂ := by
  simp [loaderArgs, List.filterMap_append]

/-- Taking the token and releasing it leaves `mpLoading` as it was. -/
theorem update_release {m : Key → Option Int} {k : Key} (hfree : m k = none) :
    Function.update (Function.update m k (some 0)) k none = m := by
  funext x
  by_cases hx : x = k
  · subst hx; simp [hfree]
  · simp [Function.update_noteq hx]

/-- The hit path: the store has a value for the key. -/
theorem Get.hit {σ : Type} (ops : GCache σ) (s : Sys σ) (k : Key) (f : DATALOADER)
    (v : Value) (hhit : (ops.Get s.t.cache k).1 = (v, none)) (fuel : Nat) (hf : 1 ≤ fuel) :
    MemCache.Get ops fuel k f s =
      some (.ret v none,
        ⟨{ s.t with cache := (ops.Get s.t.cache k).2 }, s.log ++ [.storeGet k]⟩) := by
  apply Get.run_le ops k f 1 fuel _ _ _ _ hf
  simp [MemCache.Get.run, MemCache.Get.step, hhit]

/-- The fill path when the loader succeeds. -/
theorem Get.fill_ok {σ : Type} (ops : GCache σ) (s : Sys σ) (k : Key) (f : DATALOADER)
    (v : Value) (ttl : Duration)
    (hmiss : (ops.Get s.t.cache k).1.2 = some .KeyNotFoundError)
    (hfree : s.t.mpLoading k = none)
    (hload : f (s.t._getFailCount k) = .ret v ttl none) :
    ∃ s' : Sys σ,
      (∀ fuel, 9 ≤ fuel → MemCache.Get ops fuel k f s = some (.ret v none, s')) ∧
      s'.log = s.log ++ [.storeGet k, .loaderCall k (s.t._getFailCount k), .storeSet k v ttl] ∧
      s'.t.cache = ops.SetWithExpire (ops.Get s.t.cache k).2 k v ttl ∧
      s'.t.mpLoading = s.t.mpLoading ∧
      s'.t.failCount =
        (if 0 < s.t._getFailCount k then Function.update s.t.failCount k none
         else s.t.failCount) := by
  have hup := update_release hfree
  refine ⟨⟨⟨s.t.mpLoading, (if 0 < s.t._getFailCount k then Function.update s.t.failCount k none
         else s.t.failCount),
      ops.SetWithExpire (ops.Get s.t.cache k).2 k v ttl⟩,
      s.log ++ [.storeGet k, .loaderCall k (s.t._getFailCount k), .storeSet k v ttl]⟩,
      fun fuel hf => ?_, rfl, rfl, rfl, rfl⟩
  apply Get.run_le ops k f 9 fuel _ _ _ _ hf
  simp only [MemCache._getFailCount] at hload ⊢
  by_cases hn : 0 < (match s.t.failCount k with
            | some nCount => nCount
            | none => 0)
  · simp [MemCache.Get.run, MemCache.Get.step, hmiss, hfree, hload, hn, hup,
      MemCache._setKeyLoadingIfNotExist, MemCache._getFailCount, MemCache._delFailCount,
      MemCache._readKeyLoading, MemCache._delKeyLoading]
  · simp [MemCache.Get.run, MemCache.Get.step, hmiss, hfree, hload, hn, hup,
      MemCache._setKeyLoadingIfNotExist, MemCache._getFailCount, MemCache._delFailCount,
      MemCache._readKeyLoading, MemCache._delKeyLoading]

/-- The fill path when the loader returns an error. -/
theorem Get.fill_err {σ : Type} (ops : GCache σ) (s : Sys σ) (k : Key) (f : DATALOADER)
    (data : Value) (d : Duration) (e : Error)
    (hmiss : (ops.Get s.t.cache k).1.2 = some .KeyNotFoundError)
    (hfree : s.t.mpLoading k = none)
    (hload : f (s.t._getFailCount k) = .ret data d (some e)) :
    ∃ s' : Sys σ,
      (∀ fuel, 7 ≤ fuel → MemCache.Get ops fuel k f s = some (.ret .nil (some e), s')) ∧
      s'.log = s.log ++ [.storeGet k, .loaderCall k (s.t._getFailCount k)] ∧
      s'.t.cache = (ops.Get s.t.cache k).2 ∧
      s'.t.mpLoading = s.t.mpLoading ∧
      s'.t.failCount = Function.update s.t.failCount k
        (some (match s.t.failCount k with
          | some nCount => wrapInt (nCount + 1)
          | none => 1)) := by
  have hup := update_release hfree
  refine ⟨⟨⟨s.t.mpLoading, Function.update s.t.failCount k
        (some (match s.t.failCount k with
          | some nCount => wrapInt (nCount + 1)
          | none => 1)), (ops.Get s.t.cache k).2⟩,
      s.log ++ [.storeGet k, .loaderCall k (s.t._getFailCount k)]⟩,
      fun fuel hf => ?_, rfl, rfl, rfl, rfl⟩
  apply Get.run_le ops k f 7 fuel _ _ _ _ hf
  simp only [MemCache._getFailCount] at hload ⊢
  cases hfc : s.t.failCount k <;>
    simp [hfc] at hload <;>
    simp [MemCache.Get.run, MemCache.Get.step, hmiss, hfree, hload, hup, hfc,
      MemCache._setKeyLoadingIfNotExist, MemCache._getFailCount, MemCache._addFailCount,
      MemCache._delKeyLoading]

/-- The fill path when the loader panics: the deferred release still runs. -/
theorem Get.fill_panic {σ : Type} (ops : GCache σ) (s : Sys σ) (k : Key) (f : DATALOADER)
    (hmiss : (ops.Get s.t.cache k).1.2 = some .KeyNotFoundError)
    (hfree : s.t.mpLoading k = none)
    (hload : f (s.t._getFailCount k) = .panic) :
    ∃ s' : Sys σ,
      (∀ fuel, 6 ≤ fuel → MemCache.Get ops fuel k f s = some (.panic, s')) ∧
      s'.log = s.log ++ [.storeGet k, .loaderCall k (s.t._getFailCount k)] ∧
      s'.t.cache = (ops.Get s.t.cache k).2 ∧
      s'.t.mpLoading = s.t.mpLoading ∧
      s'.t.failCount = s.t.failCount := by
  have hup := update_release hfree
  refine ⟨⟨⟨s.t.mpLoading, s.t.failCount, (ops.Get s.t.cache k).2⟩,
      s.log ++ [.storeGet k, .loaderCall k (s.t._getFailCount k)]⟩,
      fun fuel hf => ?_, rfl, rfl, rfl, rfl⟩
  apply Get.run_le ops k f 6 fuel _ _ _ _ hf
  simp only [MemCache._getFailCount] at hload ⊢
  simp [MemCache.Get.run, MemCache.Get.step, hmiss, hfree, hload, hup,
    MemCache._setKeyLoadingIfNotExist, MemCache._getFailCount, MemCache._delKeyLoading]

/-- Whatever the loader does, a `Get` that misses with the token free returns,
after invoking the loader once with the stored fail count. -/
theorem Get.fill_any {σ : Type} (ops : GCache σ) (s : Sys σ) (k : Key) (f : DATALOADER)
    (hmiss : (ops.Get s.t.cache k).1.2 = some .KeyNotFoundError)
    (hfree : s.t.mpLoading k = none) :
    ∃ (r : GetReturn) (s' : Sys σ),
      (∀ fuel, 9 ≤ fuel → MemCache.Get ops fuel k f s = some (r, s')) ∧
      loaderArgs k s'.log = loaderArgs k s.log ++ [s.t._getFailCount k] := by
  cases hload : f (s.t._getFailCount k) with
  | panic =>
    obtain ⟨s', hrun, hlog, -⟩ := Get.fill_panic ops s k f hmiss hfree hload
    exact ⟨_, s', fun fuel hf => hrun fuel (by omega), by simp [hlog, loaderArgs]⟩
  | ret data d err =>
    cases err with
    | none =>
      obtain ⟨s', hrun, hlog, -⟩ := Get.fill_ok ops s k f data d hmiss hfree hload
      exact ⟨_, s', hrun, by simp [hlog, loaderArgs]⟩
    | some e =>
      obtain ⟨s', hrun, hlog, -⟩ := Get.fill_err ops s k f data d e hmiss hfree hload
      exact ⟨_, s', fun fuel hf => hrun fuel (by omega), by simp [hlog, loaderArgs]⟩

/-! ## Go `int` arithmetic -/

theorem wrapInt_of_range (n : Int) (h0 : minInt ≤ n) (h : n ≤ maxInt) : wrapInt n = n := by
  unfold wrapInt minInt maxInt intBits at *
  norm_num at *
  omega

theorem wrapInt_wrapInt_succ (n : Int) : wrapInt (wrapInt n + 1) = wrapInt (n + 1) := by
  unfold wrapInt intBits
  norm_num
  omega

/-! ## Sequential runs on `MapStore` -/

theorem MapStore_miss (c : Key → Option (Value × Duration)) (k : Key) (h : c k = none) :
    (MapStore.Get c k).1.2 = some .KeyNotFoundError ∧ (MapStore.Get c k).2 = c := by
  simp [MapStore, h]

theorem Delete_eq {σ : Type} (ops : GCache σ) (k : Key) (s : Sys σ) :
    MemCache.Delete ops k s =
      ⟨{ s.t._setKeyNeedReLoadIfInLoading k with
          cache := ops.Remove (s.t._setKeyNeedReLoadIfInLoading k).cache k },
        s.log ++ [.storeRemove k]⟩ := rfl

/-- Consecutive failed fills on `MapStore`: each loader receives the wrapped
running count. -/
theorem seqGets_fails (k : Key) (fuel : Nat) (hfuel : 9 ≤ fuel) :
    ∀ (fails : List DATALOADER) (s : Sys (Key → Option (Value × Duration))) (j : Int),
      (∀ f ∈ fails, AlwaysFails f) → s.t.cache k = none → s.t.mpLoading k = none →
      s.t._getFailCount k = wrapInt j →
      ∃ s', seqGets MapStore fuel k fails s = some s' ∧
        s'.t.cache k = none ∧ s'.t.mpLoading k = none ∧
        s'.t._getFailCount k = wrapInt (j + fails.length) ∧
        loaderArgs k s'.log =
          loaderArgs k s.log ++ (List.range fails.length).map (fun i : Nat => wrapInt (j + (i : Int))) := by
  intro fails
  induction fails with
  | nil =>
    intro s j _ hc hm hj
    exact ⟨s, rfl, hc, hm, by simpa using hj, by simp⟩
  | cons f fs ih =>
    intro s j hf hc hm hj
    obtain ⟨data, d, e, hload⟩ := hf f (List.mem_cons_self _ _) (s.t._getFailCount k)
    obtain ⟨s1, hrun, hlog, hcache, hmp, hfc⟩ :=
      Get.fill_err MapStore s k f data d e (MapStore_miss _ k hc).1 hm hload
    have hc1 : s1.t.cache k = none := by rw [hcache, (MapStore_miss _ k hc).2]; exact hc
    have hm1 : s1.t.mpLoading k = none := by rw [hmp]; exact hm
    have hj1 : s1.t._getFailCount k = wrapInt (j + 1) := by
      simp only [MemCache._getFailCount, hfc, Function.update_same]
      simp only [MemCache._getFailCount] at hj
      cases hk : s.t.failCount k with
      | none =>
        simp only [hk] at hj ⊢
        unfold wrapInt intBits at hj ⊢
        norm_num at hj ⊢
        omega
      | some n =>
        simp only [hk] at hj ⊢
        rw [hj, wrapInt_wrapInt_succ]
    obtain ⟨s', hseq, hc', hm', hj', hlog'⟩ :=
      ih s1 (j + 1) (fun g hg => hf g (List.mem_cons_of_mem _ hg)) hc1 hm1 hj1
    refine ⟨s', ?_, hc', hm', ?_, ?_⟩
    · simp [seqGets, hrun fuel (by omega), hseq]
    · rw [hj']; congr 1; simp; ring
    · rw [hlog', hlog, loaderArgs_append, hj]
      simp [loaderArgs, List.range_succ_eq_map, List.map_map, Function.comp_def]
      intro a _
      congr 1; ring

/-- After `n` failed fills on a fresh cache (any `n`), a succeeding loader
receives the wrapped count `wrapInt n`. -/
theorem seqGets_fails_then_ok (k : Key) (size : Int) (fuel : Nat) (hfuel : 9 ≤ fuel)
    (fails : List DATALOADER) (okL : DATALOADER)
    (hfails : ∀ f ∈ fails, AlwaysFails f) (hok : AlwaysSucceeds okL) :
    ∃ s1 r2 s2,
      seqGets MapStore fuel k fails ⟨NewMemCache MapStore size, []⟩ = some s1 ∧
      loaderArgs k s1.log = (List.range fails.length).map (fun i : Nat => wrapInt (i : Int)) ∧
      MemCache.Get MapStore fuel k okL s1 = some (r2, s2) ∧
      loaderArgs k s2.log = loaderArgs k s1.log ++ [wrapInt (fails.length : Int)] ∧
      s2.t.mpLoading k = none ∧
      s2.t._getFailCount k = (if 0 < wrapInt (fails.length : Int) then 0
        else wrapInt (fails.length : Int)) := by
  obtain ⟨s1, hseq, hc1, hm1, hj1, hlog1⟩ :=
    seqGets_fails k fuel hfuel fails ⟨NewMemCache MapStore size, []⟩ 0 hfails
      (by simp [NewMemCache, MapStore]) (by simp [NewMemCache])
      (by simp [NewMemCache, MemCache._getFailCount, wrapInt, intBits])
  obtain ⟨data, d, hload⟩ := hok (s1.t._getFailCount k)
  obtain ⟨s2, hrun, hlog2, -, hmp2, hfc2⟩ :=
    Get.fill_ok MapStore s1 k okL data d (MapStore_miss _ k hc1).1 hm1 hload
  rw [zero_add] at hj1
  refine ⟨s1, _, s2, hseq, ?_, hrun fuel hfuel, ?_, by rw [hmp2]; exact hm1, ?_⟩
  · rw [hlog1]; simp [loaderArgs]
  · rw [hlog2, loaderArgs_append, hj1]; simp [loaderArgs]
  · rw [← hj1]
    by_cases hpos : 0 < s1.t._getFailCount k
    · rw [if_pos hpos] at hfc2 ⊢
      simp [MemCache._getFailCount, hfc2]
    · rw [if_neg hpos] at hfc2 ⊢
      simp only [MemCache._getFailCount, hfc2]

/-- What one step of a goroutine can do to the fill section and to the token of `k`:
enter (possible only when the token is free), leave, or neither. -/
theorem Thread.step_fill {σ : Type} (ops : GCache σ) (th : Thread) (s : Sys σ) (k : Key) :
    (th.inFill k = false ∧ (th.step ops s).1.inFill k = true ∧ s.t.mpLoading k = none ∧
      (th.step ops s).2.t.mpLoading k ≠ none) ∨
    (th.inFill k = true ∧ (th.step ops s).1.inFill k = false) ∨
    ((th.step ops s).1.inFill k = th.inFill k ∧
      ((th.step ops s).2.t.mpLoading k = none ↔ s.t.mpLoading k = none)) := by
  cases th with
  | has k' pc => cases pc <;> simp [Thread.step, Thread.inFill, MemCache.Has.step]
  | delete k' pc =>
    cases pc <;> simp [Thread.step, Thread.inFill, MemCache.Delete.step,
      MemCache._setKeyNeedReLoadIfInLoading]
    cases h : s.t.mpLoading k' with
    | none => simp
    | some n =>
      by_cases hk : k = k'
      · subst hk; simp [h]
      · simp [Function.update_noteq hk]
  | get k' f pc =>
    by_cases hk : k' = k
    · subst hk
      cases pc with
      | probe =>
        right; right
        simp only [Thread.step, Thread.inFill, MemCache.Get.step]
        split <;> [skip; split] <;> simp [GetPc.inFill]
      | acquire =>
        cases h : s.t.mpLoading k' with
        | none =>
          left
          simp [Thread.step, Thread.inFill, MemCache.Get.step, GetPc.inFill,
            MemCache._setKeyLoadingIfNotExist, h]
        | some n =>
          right; right
          simp [Thread.step, Thread.inFill, MemCache.Get.step, GetPc.inFill,
            MemCache._setKeyLoadingIfNotExist, h]
      | release r =>
        right; left
        simp [Thread.step, Thread.inFill, MemCache.Get.step, GetPc.inFill]
      | inLoader nFail =>
        right; right
        simp only [Thread.step, Thread.inFill, MemCache.Get.step]
        split <;> [skip; skip; split] <;> simp [GetPc.inFill]
      | readLoading data d =>
        right; right
        simp only [Thread.step, Thread.inFill, MemCache.Get.step]
        split <;> simp [GetPc.inFill]
      | _ =>
        right; right
        simp [Thread.step, Thread.inFill, MemCache.Get.step, GetPc.inFill,
          MemCache._addFailCount, MemCache._delFailCount]
        try (split <;> simp)
    · right; right
      have hk' : k ≠ k' := fun h => hk h.symm
      refine ⟨by simp [Thread.step, Thread.inFill, hk], ?_⟩
      cases pc with
      | probe =>
        simp only [Thread.step, MemCache.Get.step]
        split <;> [skip; split] <;> simp
      | acquire =>
        cases h : s.t.mpLoading k' <;>
          simp [Thread.step, MemCache.Get.step, MemCache._setKeyLoadingIfNotExist, h,
            Function.update_noteq hk']
      | release r =>
        simp [Thread.step, MemCache.Get.step, MemCache._delKeyLoading, Function.update_noteq hk']
      | inLoader nFail =>
        simp only [Thread.step, MemCache.Get.step]
        split <;> [skip; skip; split] <;> simp
      | readLoading data d =>
        simp only [Thread.step, MemCache.Get.step]
        split <;> simp
      | _ =>
        simp [Thread.step, MemCache.Get.step, MemCache._addFailCount, MemCache._delFailCount]
        try (split <;> simp)


theorem FillInv_stepAt {σ : Type} (ops : GCache σ) (k : Key) (c : Config σ) (n : Nat)
    (h : FillInv k c) : FillInv k (Config.stepAt ops c n) := by
  unfold Config.stepAt
  cases hth : c.threads[n]? with
  | none => simpa using h
  | some th =>
    have hlt : n < c.threads.length := by
      rcases List.getElem?_eq_some.mp hth with ⟨hl, -⟩
      exact hl
    obtain ⟨h1, h2⟩ := h
    have hget : ∀ (j : Nat) (tj : Thread),
        (c.threads.set n (th.step ops c.sys).1)[j]? = some tj →
        (j = n ∧ tj = (th.step ops c.sys).1) ∨ (j ≠ n ∧ c.threads[j]? = some tj) := by
      intro j tj hj
      rw [List.getElem?_set] at hj
      by_cases hnj : n = j
      · subst hnj
        simp [hlt] at hj
        exact Or.inl ⟨rfl, hj.symm⟩
      · simp [hnj] at hj
        exact Or.inr ⟨fun e => hnj e.symm, hj⟩
    simp only
    rcases Thread.step_fill ops th c.sys k with ⟨hb, ha, hfree, hheld⟩ | ⟨hb, ha⟩ | ⟨hsame, hiff⟩
    · -- the goroutine enters its fill section: the token was free, nobody else is inside
      have hnone : ∀ (j : Nat) (tj : Thread), c.threads[j]? = some tj → tj.inFill k = false := by
        intro j tj hj
        cases hf : tj.inFill k with
        | false => rfl
        | true => exact absurd hfree (h2 j tj hj hf)
      refine ⟨fun i j ti tj hi hj fi fj => ?_, fun i ti hi fi => hheld⟩
      rcases hget i ti hi with ⟨rfl, -⟩ | ⟨-, hi'⟩
      · rcases hget j tj hj with ⟨rfl, -⟩ | ⟨-, hj'⟩
        · rfl
        · rw [hnone j tj hj'] at fj; exact absurd fj (by decide)
      · rw [hnone i ti hi'] at fi; exact absurd fi (by decide)
    · -- the goroutine leaves its fill section: it was the only one inside
      have hnone : ∀ (j : Nat) (tj : Thread),
          (c.threads.set n (th.step ops c.sys).1)[j]? = some tj → tj.inFill k = false := by
        intro j tj hj
        rcases hget j tj hj with ⟨-, rfl⟩ | ⟨hne, hj'⟩
        · exact ha
        · cases hf : tj.inFill k with
          | false => rfl
          | true => exact absurd (h1 j n tj th hj' hth hf hb) hne
      refine ⟨fun i j ti tj hi _ fi _ => ?_, fun i ti hi fi => ?_⟩
      · rw [hnone i ti hi] at fi; exact absurd fi (by decide)
      · rw [hnone i ti hi] at fi; exact absurd fi (by decide)
    · -- neither: membership of the fill section and presence of the token are unchanged
      have hback : ∀ (j : Nat) (tj : Thread),
          (c.threads.set n (th.step ops c.sys).1)[j]? = some tj → tj.inFill k = true →
          ∃ tj', c.threads[j]? = some tj' ∧ tj'.inFill k = true := by
        intro j tj hj fj
        rcases hget j tj hj with ⟨rfl, rfl⟩ | ⟨-, hj'⟩
        · exact ⟨th, hth, by rw [← hsame]; exact fj⟩
        · exact ⟨tj, hj', fj⟩
      refine ⟨fun i j ti tj hi hj fi fj => ?_, fun i ti hi fi => ?_⟩
      · obtain ⟨ti', hi', fi'⟩ := hback i ti hi fi
        obtain ⟨tj', hj', fj'⟩ := hback j tj hj fj
        exact h1 i j ti' tj' hi' hj' fi' fj'
      · obtain ⟨ti', hi', fi'⟩ := hback i ti hi fi
        exact fun hn => h2 i ti' hi' fi' (hiff.mp hn)

theorem FillInv_runSchedule {σ : Type} (ops : GCache σ) (k : Key) (sched : List Nat) :
    ∀ c : Config σ, FillInv k c → FillInv k (Config.runSchedule ops c sched) := by
  induction sched with
  | nil => intro c h; exact h
  | cons n rest ih =>
    intro c h
    exact ih _ (FillInv_stepAt ops k c n h)

theorem FillInv_init {σ : Type} (ops : GCache σ) (size : Int) (calls : List Call) (k : Key) :
    FillInv k (Config.init ops size calls) := by
  have hnone : ∀ (i : Nat) (ti : Thread),
      (Config.init ops size calls).threads[i]? = some ti → ti.inFill k = false := by
    intro i ti hi
    simp only [Config.init, List.getElem?_map, Option.map_eq_some'] at hi
    obtain ⟨call, -, rfl⟩ := hi
    cases call <;> simp [Call.start, Thread.inFill, GetPc.inFill]
  refine ⟨fun i j ti tj hi _ fi _ => ?_, fun i ti hi fi => ?_⟩
  · rw [hnone i ti hi] at fi; exact absurd fi (by decide)
  · rw [hnone i ti hi] at fi; exact absurd fi (by decide)

/-! ## Steps of a goroutine and the two maps -/

/-- What one step of a goroutine can do to the entry of `k` in `mpLoading`:
nothing, create it with value 0 (token acquisition by a `Get` on `k`), set an
existing entry to 1 (`Delete` of `k`), or delete an existing entry (deferred
release by a `Get` on `k`). -/
theorem Thread.step_mpLoading {σ : Type} (ops : GCache σ) (th : Thread) (s : Sys σ) (k : Key) :
    (th.step ops s).2.t.mpLoading k = s.t.mpLoading k ∨
    (s.t.mpLoading k = none ∧ (th.step ops s).2.t.mpLoading k = some 0 ∧
      ∃ f, th = .get k f .acquire) ∨
    (s.t.mpLoading k ≠ none ∧ (th.step ops s).2.t.mpLoading k = some 1 ∧
      th = .delete k .setNeedReLoad) ∨
    (s.t.mpLoading k ≠ none ∧ (th.step ops s).2.t.mpLoading k = none ∧
      ∃ f r, th = .get k f (.release r)) := by
  cases th with
  | has k' pc => cases pc <;> simp [Thread.step, MemCache.Has.step]
  | delete k' pc =>
    cases pc with
    | setNeedReLoad =>
      by_cases hk : k' = k
      · subst hk
        cases h : s.t.mpLoading k' with
        | none => simp [Thread.step, MemCache.Delete.step, MemCache._setKeyNeedReLoadIfInLoading, h]
        | some n =>
          right; right; left
          simp [Thread.step, MemCache.Delete.step, MemCache._setKeyNeedReLoadIfInLoading, h]
      · left
        have hk' : k ≠ k' := fun h => hk h.symm
        cases h : s.t.mpLoading k' <;>
          simp [Thread.step, MemCache.Delete.step, MemCache._setKeyNeedReLoadIfInLoading, h,
            Function.update_noteq hk']
    | remove => simp [Thread.step, MemCache.Delete.step]
    | done => simp [Thread.step, MemCache.Delete.step]
  | get k' f pc =>
    cases pc with
    | probe =>
      left
      simp only [Thread.step, MemCache.Get.step]
      split <;> [skip; split] <;> simp
    | acquire =>
      by_cases hk : k' = k
      · subst hk
        cases h : s.t.mpLoading k' with
        | none =>
          right; left
          simp [Thread.step, MemCache.Get.step, MemCache._setKeyLoadingIfNotExist, h]
        | some n =>
          left
          simp [Thread.step, MemCache.Get.step, MemCache._setKeyLoadingIfNotExist, h]
      · left
        have hk' : k ≠ k' := fun h => hk h.symm
        cases h : s.t.mpLoading k' <;>
          simp [Thread.step, MemCache.Get.step, MemCache._setKeyLoadingIfNotExist, h,
            Function.update_noteq hk']
    | release r =>
      by_cases hk : k' = k
      · subst hk
        cases h : s.t.mpLoading k' with
        | none =>
          left
          simp [Thread.step, MemCache.Get.step, MemCache._delKeyLoading, h]
        | some n =>
          right; right; right
          simp [Thread.step, MemCache.Get.step, MemCache._delKeyLoading, h]
      · left
        have hk' : k ≠ k' := fun h => hk h.symm
        simp [Thread.step, MemCache.Get.step, MemCache._delKeyLoading, Function.update_noteq hk']
    | inLoader nFail =>
      left
      simp only [Thread.step, MemCache.Get.step]
      split <;> [skip; skip; split] <;> simp
    | readLoading data d =>
      left
      simp only [Thread.step, MemCache.Get.step]
      split <;> simp
    | _ =>
      left
      simp [Thread.step, MemCache.Get.step, MemCache._addFailCount, MemCache._delFailCount]
      try (split <;> simp)

/-- The entry of `k` in `mpLoading` after goroutine `i` has taken a step: as
`Thread.step_mpLoading`, for a configuration. -/
theorem Config.stepAt_mpLoading {σ : Type} (ops : GCache σ) (c : Config σ) (i : Nat) (k : Key) :
    (Config.stepAt ops c i).sys.t.mpLoading k = c.sys.t.mpLoading k ∨
    (c.sys.t.mpLoading k = none ∧ (Config.stepAt ops c i).sys.t.mpLoading k = some 0 ∧
      ∃ f, c.threads[i]? = some (.get k f .acquire)) ∨
    (c.sys.t.mpLoading k ≠ none ∧ (Config.stepAt ops c i).sys.t.mpLoading k = some 1 ∧
      c.threads[i]? = some (.delete k .setNeedReLoad)) ∨
    (c.sys.t.mpLoading k ≠ none ∧ (Config.stepAt ops c i).sys.t.mpLoading k = none ∧
      ∃ f r, c.threads[i]? = some (.get k f (.release r))) := by
  unfold Config.stepAt
  cases hth : c.threads[i]? with
  | none => left; rfl
  | some th =>
    rcases Thread.step_mpLoading ops th c.sys k with h | ⟨h1, h2, f, rfl⟩ | ⟨h1, h2, rfl⟩ |
      ⟨h1, h2, f, r, rfl⟩
    · exact Or.inl h
    · exact Or.inr (Or.inl ⟨h1, h2, f, rfl⟩)
    · exact Or.inr (Or.inr (Or.inl ⟨h1, h2, rfl⟩))
    · exact Or.inr (Or.inr (Or.inr ⟨h1, h2, f, r, rfl⟩))

theorem LoadVals_stepAt {σ : Type} (ops : GCache σ) (c : Config σ) (i : Nat)
    (h : LoadVals c) : LoadVals (Config.stepAt ops c i) := by
  intro k v hv
  rcases Config.stepAt_mpLoading ops c i k with he | ⟨-, h2, -⟩ | ⟨-, h2, -⟩ | ⟨-, h2, -⟩
  · exact h k v (he ▸ hv)
  · rw [h2] at hv; exact Or.inl (Option.some.inj hv).symm
  · rw [h2] at hv; exact Or.inr (Option.some.inj hv).symm
  · rw [h2] at hv; exact absurd hv (by simp)

theorem LoadVals_runSchedule {σ : Type} (ops : GCache σ) (sched : List Nat) :
    ∀ c : Config σ, LoadVals c → LoadVals (Config.runSchedule ops c sched) := by
  induction sched with
  | nil => intro c h; exact h
  | cons n rest ih => intro c h; exact ih _ (LoadVals_stepAt ops c n h)

theorem LoadVals_init {σ : Type} (ops : GCache σ) (size : Int) (calls : List Call) :
    LoadVals (Config.init ops size calls) := by
  intro k v hv
  simp [Config.init, NewMemCache] at hv

theorem Get.exits_step {σ : Type} (ops : GCache σ) (k : Key) (f : DATALOADER) (n : Nat)
    (pc : GetPc) (s : Sys σ) (hnd : ∀ r, pc ≠ .done r)
    (h : Get.ExitsReleased ops k f n (MemCache.Get.step ops k f pc s).1
      (MemCache.Get.step ops k f pc s).2) :
    Get.ExitsReleased ops k f (n + 1) pc s := by
  obtain ⟨r, s', hrun, hmp⟩ := h
  refine ⟨r, s', fun fuel hf => ?_, hmp⟩
  obtain ⟨m, rfl⟩ : ∃ m, fuel = m + 1 := ⟨fuel - 1, by omega⟩
  rw [Get.run_succ ops k f m pc s hnd]
  exact hrun m (by omega)

theorem Get.exits_mono {σ : Type} (ops : GCache σ) (k : Key) (f : DATALOADER) (n m : Nat)
    (pc : GetPc) (s : Sys σ) (h : Get.ExitsReleased ops k f n pc s) (hle : n ≤ m) :
    Get.ExitsReleased ops k f m pc s := by
  obtain ⟨r, s', hrun, hmp⟩ := h
  exact ⟨r, s', fun fuel hf => hrun fuel (by omega), hmp⟩

theorem Get.exits_release {σ : Type} (ops : GCache σ) (k : Key) (f : DATALOADER)
    (r : GetReturn) (s : Sys σ) : Get.ExitsReleased ops k f 1 (.release r) s := by
  apply Get.exits_step ops k f 0 _ s (by simp)
  refine ⟨r, ⟨s.t._delKeyLoading k, s.log⟩, fun fuel _ => ?_, ?_⟩
  · simp only [MemCache.Get.step]
    exact Get.run_done ops k f fuel r _
  · simp [MemCache._delKeyLoading]

theorem Get.exits_commit {σ : Type} (ops : GCache σ) (k : Key) (f : DATALOADER)
    (data : Value) (d : Duration) (s : Sys σ) :
    Get.ExitsReleased ops k f 2 (.commit data d) s := by
  apply Get.exits_step ops k f 1 _ s (by simp)
  simp only [MemCache.Get.step]
  exact Get.exits_release ops k f _ _

theorem Get.exits_readLoading {σ : Type} (ops : GCache σ) (k : Key) (f : DATALOADER)
    (data : Value) (d : Duration) (s : Sys σ) :
    Get.ExitsReleased ops k f 3 (.readLoading data d) s := by
  apply Get.exits_step ops k f 2 _ s (by simp)
  simp only [MemCache.Get.step]
  split
  · exact Get.exits_commit ops k f _ _ _
  · exact Get.exits_mono ops k f 1 2 _ _ (Get.exits_release ops k f _ _) (by omega)

theorem Get.exits_inLoader {σ : Type} (ops : GCache σ) (k : Key) (f : DATALOADER)
    (nFail : Int) (s : Sys σ) :
    Get.ExitsReleased ops k f 5 (.inLoader nFail) s := by
  apply Get.exits_step ops k f 4 _ s (by simp)
  simp only [MemCache.Get.step]
  split
  · exact Get.exits_mono ops k f 1 4 _ _ (Get.exits_release ops k f _ _) (by omega)
  · apply Get.exits_mono ops k f 2 4 _ _ _ (by omega)
    apply Get.exits_step ops k f 1 _ _ (by simp)
    simp only [MemCache.Get.step]
    exact Get.exits_release ops k f _ _
  · split
    · apply Get.exits_step ops k f 3 _ _ (by simp)
      simp only [MemCache.Get.step]
      exact Get.exits_readLoading ops k f _ _ _
    · exact Get.exits_mono ops k f 3 4 _ _ (Get.exits_readLoading ops k f _ _ _) (by omega)

/-- From every control point of the fill section, whatever the loader does and
whatever `mpLoading` holds, `Get` run alone returns and the entry is gone. -/
theorem Get.exits_inFill {σ : Type} (ops : GCache σ) (k : Key) (f : DATALOADER)
    (pc : GetPc) (s : Sys σ) (hpc : pc.inFill = true) :
    Get.ExitsReleased ops k f 7 pc s := by
  cases pc with
  | probe => simp [GetPc.inFill] at hpc
  | acquire => simp [GetPc.inFill] at hpc
  | sleep => simp [GetPc.inFill] at hpc
  | done r => simp [GetPc.inFill] at hpc
  | getFail =>
    apply Get.exits_step ops k f 6 _ s (by simp)
    simp only [MemCache.Get.step]
    apply Get.exits_step ops k f 5 _ _ (by simp)
    simp only [MemCache.Get.step]
    exact Get.exits_inLoader ops k f _ _
  | callLoader nFail =>
    apply Get.exits_mono ops k f 6 7 _ _ _ (by omega)
    apply Get.exits_step ops k f 5 _ _ (by simp)
    simp only [MemCache.Get.step]
    exact Get.exits_inLoader ops k f _ _
  | inLoader nFail =>
    exact Get.exits_mono ops k f 5 7 _ _ (Get.exits_inLoader ops k f _ _) (by omega)
  | addFail e =>
    apply Get.exits_mono ops k f 2 7 _ _ _ (by omega)
    apply Get.exits_step ops k f 1 _ _ (by simp)
    simp only [MemCache.Get.step]
    exact Get.exits_release ops k f _ _
  | delFail data d =>
    apply Get.exits_mono ops k f 4 7 _ _ _ (by omega)
    apply Get.exits_step ops k f 3 _ _ (by simp)
    simp only [MemCache.Get.step]
    exact Get.exits_readLoading ops k f _ _ _
  | readLoading data d =>
    exact Get.exits_mono ops k f 3 7 _ _ (Get.exits_readLoading ops k f _ _ _) (by omega)
  | commit data d =>
    exact Get.exits_mono ops k f 2 7 _ _ (Get.exits_commit ops k f _ _ _) (by omega)
  | release r =>
    exact Get.exits_mono ops k f 1 7 _ _ (Get.exits_release ops k f _ _) (by omega)

/-- A goroutine leaves its fill section only by the deferred release, which
deletes the entry. -/
theorem Thread.step_leave_fill {σ : Type} (ops : GCache σ) (th : Thread) (s : Sys σ) (k : Key)
    (hin : th.inFill k = true) (hout : (th.step ops s).1.inFill k = false) :
    (th.step ops s).2.t.mpLoading k = none ∧ ∃ f r, th = .get k f (.release r) := by
  cases th with
  | has k' pc => simp [Thread.inFill] at hin
  | delete k' pc => simp [Thread.inFill] at hin
  | get k' f pc =>
    simp only [Thread.inFill, Bool.and_eq_true, decide_eq_true_eq] at hin
    obtain ⟨rfl, hpc⟩ := hin
    cases pc with
    | probe => simp [GetPc.inFill] at hpc
    | acquire => simp [GetPc.inFill] at hpc
    | sleep => simp [GetPc.inFill] at hpc
    | done r => simp [GetPc.inFill] at hpc
    | release r => simp [Thread.step, MemCache.Get.step, MemCache._delKeyLoading]
    | inLoader nFail =>
      exfalso
      revert hout
      simp only [Thread.step, Thread.inFill, MemCache.Get.step]
      split <;> [skip; skip; split] <;> simp [GetPc.inFill]
    | readLoading data d =>
      exfalso
      revert hout
      simp only [Thread.step, Thread.inFill, MemCache.Get.step]
      split <;> simp [GetPc.inFill]
    | _ => simp [Thread.step, Thread.inFill, MemCache.Get.step, GetPc.inFill] at hout

/-- What one step of a goroutine can do to the entry of `k` in `failCount`:
nothing, `_addFailCount(k)` by a `Get` on `k` at line 58, or `_delFailCount(k)`
by a `Get` on `k` at line 63. -/
theorem Thread.step_failCount {σ : Type} (ops : GCache σ) (th : Thread) (s : Sys σ) (k : Key) :
    (th.step ops s).2.t.failCount k = s.t.failCount k ∨
    ((∃ f e, th = .get k f (.addFail e)) ∧
      (th.step ops s).2.t.failCount k =
        some (match s.t.failCount k with
          | some nCount => wrapInt (nCount + 1)
          | none => 1)) ∨
    ((∃ f data d, th = .get k f (.delFail data d)) ∧ (th.step ops s).2.t.failCount k = none) := by
  cases th with
  | has k' pc => cases pc <;> simp [Thread.step, MemCache.Has.step]
  | delete k' pc =>
    cases pc <;> simp [Thread.step, MemCache.Delete.step, MemCache._setKeyNeedReLoadIfInLoading]
    split <;> rfl
  | get k' f pc =>
    cases pc with
    | probe =>
      left
      simp only [Thread.step, MemCache.Get.step]
      split <;> [skip; split] <;> simp
    | acquire =>
      left
      cases h : s.t.mpLoading k' <;>
        simp [Thread.step, MemCache.Get.step, MemCache._setKeyLoadingIfNotExist, h]
    | inLoader nFail =>
      left
      simp only [Thread.step, MemCache.Get.step]
      split <;> [skip; skip; split] <;> simp
    | readLoading data d =>
      left
      simp only [Thread.step, MemCache.Get.step]
      split <;> simp
    | addFail e =>
      by_cases hk : k' = k
      · subst hk
        right; left
        cases h : s.t.failCount k' <;>
          simp [Thread.step, MemCache.Get.step, MemCache._addFailCount, h]
      · left
        have hk' : k ≠ k' := fun h => hk h.symm
        cases h : s.t.failCount k' <;>
          simp [Thread.step, MemCache.Get.step, MemCache._addFailCount, h,
            Function.update_noteq hk']
    | delFail data d =>
      by_cases hk : k' = k
      · subst hk
        right; right
        simp [Thread.step, MemCache.Get.step, MemCache._delFailCount]
      · left
        have hk' : k ≠ k' := fun h => hk h.symm
        simp [Thread.step, MemCache.Get.step, MemCache._delFailCount, Function.update_noteq hk']
    | _ =>
      left
      simp [Thread.step, MemCache.Get.step, MemCache._delKeyLoading]

/-- A run of `Get` on another key leaves the fail count of `k` as it was. -/
theorem Get.run_failCount_other {σ : Type} (ops : GCache σ) (k k' : Key) (f : DATALOADER)
    (hk : k' ≠ k) :
    ∀ (fuel : Nat) (pc : GetPc) (s : Sys σ) (r : GetReturn) (s' : Sys σ),
      MemCache.Get.run ops k' f fuel pc s = some (r, s') →
      s'.t.failCount k = s.t.failCount k := by
  intro fuel
  induction fuel with
  | zero =>
    intro pc s r s' h
    cases pc <;> simp [MemCache.Get.run] at h
    rw [h.2]
  | succ n ih =>
    intro pc s r s' h
    by_cases hd : ∃ r0, pc = .done r0
    · obtain ⟨r0, rfl⟩ := hd
      rw [Get.run_done] at h
      simp at h
      rw [h.2]
    · have hd' : ∀ r0, pc ≠ .done r0 := fun r0 hr => hd ⟨r0, hr⟩
      rw [Get.run_succ ops k' f n pc s hd'] at h
      rw [ih _ _ _ _ h]
      rcases Thread.step_failCount ops (.get k' f pc) s k with h1 | ⟨⟨_, _, h2⟩, -⟩ |
        ⟨⟨_, _, _, h2⟩, -⟩
      · exact h1
      · simp only [Thread.get.injEq] at h2; exact absurd h2.1 hk
      · simp only [Thread.get.injEq] at h2; exact absurd h2.1 hk

/-- A `Get` whose probe does not report `KeyNotFoundError` (a hit or a store
fault) leaves `mpLoading` and `failCount` as they were. -/
theorem Get.run_no_fill {σ : Type} (ops : GCache σ) (k : Key) (f : DATALOADER) (s : Sys σ)
    (h : (ops.Get s.t.cache k).1.2 ≠ some .KeyNotFoundError) (fuel : Nat) (r : GetReturn)
    (s' : Sys σ) (hrun : MemCache.Get ops fuel k f s = some (r, s')) :
    s'.t.failCount = s.t.failCount ∧ s'.t.mpLoading = s.t.mpLoading := by
  unfold MemCache.Get at hrun
  cases fuel with
  | zero => simp [MemCache.Get.run] at hrun
  | succ n =>
    rw [Get.run_succ ops k f n .probe s (by simp)] at hrun
    cases herr : (ops.Get s.t.cache k).1.2 with
    | none =>
      simp only [MemCache.Get.step, herr] at hrun
      rw [Get.run_done] at hrun
      simp at hrun
      rw [← hrun.2]
      exact ⟨rfl, rfl⟩
    | some e =>
      have hne : e ≠ .KeyNotFoundError := fun he => h (by rw [herr, he])
      simp only [MemCache.Get.step, herr, hne, ne_eq, not_false_eq_true, if_true] at hrun
      rw [Get.run_done] at hrun
      simp at hrun
      rw [← hrun.2]
      exact ⟨rfl, rfl⟩

/-- A step keeps every fail count at least 1, and raises the largest one by
at most one, unless it is an `_addFailCount` on the largest `int`. -/
theorem FailVals_stepAt {σ : Type} (ops : GCache σ) (c : Config σ) (i : Nat) (bound : Int)
    (h : FailVals bound c) (hb0 : 0 ≤ bound) (hb : bound ≤ maxInt)
    (hno : ∀ th, c.threads[i]? = some th → th.overflows c.sys = false) :
    FailVals (bound + 1) (Config.stepAt ops c i) ∧
    (bound = maxInt → FailVals bound (Config.stepAt ops c i)) := by
  unfold Config.stepAt
  cases hth : c.threads[i]? with
  | none =>
    refine ⟨fun k v hv => ?_, fun _ => h⟩
    have := h k v hv
    exact ⟨this.1, by omega⟩
  | some th =>
    have hstep : ∀ (k : Key) (v : Int), (th.step ops c.sys).2.t.failCount k = some v →
        1 ≤ v ∧ v ≤ bound + 1 ∧ (bound = maxInt → v ≤ bound) := by
      intro k v hv
      rcases Thread.step_failCount ops th c.sys k with h1 | ⟨⟨f, e, rfl⟩, h2⟩ | ⟨-, h2⟩
      · rw [h1] at hv
        have := h k v hv
        exact ⟨this.1, by omega, fun _ => this.2⟩
      · rw [h2] at hv
        have hv' := Option.some.inj hv
        cases hk : c.sys.t.failCount k with
        | none =>
          rw [hk] at hv'
          simp only at hv'
          subst hv'
          have : (1 : Int) ≤ maxInt := by unfold maxInt intBits; norm_num
          exact ⟨le_refl _, by omega, fun hbm => by omega⟩
        | some n =>
          rw [hk] at hv'
          simp only at hv'
          have hn := h k n hk
          have hne : n ≠ maxInt := by
            have := hno _ hth
            simp only [Thread.overflows, decide_eq_false_iff_not] at this
            intro hnm
            exact this (by rw [hk, hnm])
          have hmin : minInt ≤ n + 1 := by unfold minInt intBits; norm_num; omega
          rw [wrapInt_of_range (n + 1) hmin (by omega)] at hv'
          subst hv'
          exact ⟨by omega, by omega, fun hbm => by omega⟩
      · rw [h2] at hv; exact absurd hv (by simp)
    exact ⟨fun k v hv => ⟨(hstep k v hv).1, (hstep k v hv).2.1⟩,
      fun hbm k v hv => ⟨(hstep k v hv).1, (hstep k v hv).2.2 hbm⟩⟩

/-- In a run without overflow every fail count stays between 1 and the largest `int`. -/
theorem FailVals_runSchedule {σ : Type} (ops : GCache σ) (sched : List Nat) :
    ∀ c : Config σ, FailVals maxInt c → Config.noOverflow ops c sched = true →
      FailVals maxInt (Config.runSchedule ops c sched) := by
  induction sched with
  | nil => intro c h _; exact h
  | cons i rest ih =>
    intro c h hno
    simp only [Config.noOverflow, Bool.and_eq_true] at hno
    refine ih _ ((FailVals_stepAt ops c i maxInt h (by unfold maxInt intBits; norm_num) le_rfl ?_).2 rfl) hno.2
    intro th hth
    have h1 := hno.1
    rw [hth] at h1
    simpa using h1

/-- A run of at most `maxInt` steps cannot overflow a fail count. -/
theorem noOverflow_of_length {σ : Type} (ops : GCache σ) (sched : List Nat) :
    ∀ (c : Config σ) (n : Nat), FailVals (n : Int) c →
      ((n + sched.length : Nat) : Int) ≤ maxInt → Config.noOverflow ops c sched = true := by
  induction sched with
  | nil => intro c n _ _; rfl
  | cons i rest ih =>
    intro c n h hlen
    simp only [List.length_cons] at hlen
    have hno : ∀ th, c.threads[i]? = some th → th.overflows c.sys = false := by
      intro th _
      cases th with
      | has k pc => rfl
      | delete k pc => rfl
      | get k f pc =>
        cases pc <;> try rfl
        simp only [Thread.overflows, decide_eq_false_iff_not]
        intro hk
        have := (h k maxInt hk).2
        push_cast at hlen
        omega
    simp only [Config.noOverflow, Bool.and_eq_true]
    constructor
    · cases hth : c.threads[i]? with
      | none => rfl
      | some th => simp [hno th hth]
    · have hb : (n : Int) ≤ maxInt := by push_cast at hlen; omega
      have hs := (FailVals_stepAt ops c i n h (by omega) hb hno).1
      have hs' : FailVals ((n + 1 : Nat) : Int) (Config.stepAt ops c i) := by
        push_cast; exact hs
      exact ih _ (n + 1) hs' (by push_cast at hlen ⊢; omega)

theorem FailVals_init {σ : Type} (ops : GCache σ) (size : Int) (calls : List Call)
    (bound : Int) : FailVals bound (Config.init ops size calls) := by
  intro k v hv
  simp [Config.init, NewMemCache] at hv

theorem storeWrites_append (k : Key) (l₁ l₂ : List Event) :
    storeWrites k (l₁ ++ l₂) = storeWrites k l₁ ++ storeWrites k l₂ := by
  simp [storeWrites, List.filterMap_append]

/-- Over `MapStore`, a step keeps every stored key covered by a logged write. -/
theorem Thread.step_storeInv (th : Thread) (s : Sys (Key → Option (Value × Duration)))
    (k : Key) (h : s.t.cache k ≠ none → storeWrites k s.log ≠ []) :
    (th.step MapStore s).2.t.cache k ≠ none → storeWrites k (th.step MapStore s).2.log ≠ [] := by
  cases th with
  | has k' pc =>
    cases pc <;> simp [Thread.step, MemCache.Has.step, storeWrites_append]
    · intro hc; simpa [storeWrites] using h hc
    · exact h
  | delete k' pc =>
    cases pc with
    | setNeedReLoad =>
      simp only [Thread.step, MemCache.Delete.step, MemCache._setKeyNeedReLoadIfInLoading]
      split <;> exact h
    | remove =>
      simp only [Thread.step, MemCache.Delete.step, MapStore, storeWrites_append]
      by_cases hk : k = k'
      · subst hk; simp
      · rw [Function.update_noteq hk]
        intro hc; simpa [storeWrites] using h hc
    | done => exact h
  | get k' f pc =>
    cases pc with
    | probe =>
      have hget : (MapStore.Get s.t.cache k').2 = s.t.cache := by
        simp only [MapStore]; split <;> rfl
      simp only [Thread.step, MemCache.Get.step]
      split <;> [skip; split] <;>
        (simp only [hget, storeWrites_append]; intro hc; simpa [storeWrites] using h hc)
    | acquire =>
      simp only [Thread.step, MemCache.Get.step, MemCache._setKeyLoadingIfNotExist]
      split <;> exact h
    | callLoader nFail =>
      simp only [Thread.step, MemCache.Get.step, storeWrites_append]
      intro hc; simpa [storeWrites] using h hc
    | inLoader nFail =>
      simp only [Thread.step, MemCache.Get.step]
      split <;> [skip; skip; split] <;> exact h
    | readLoading data d =>
      simp only [Thread.step, MemCache.Get.step]
      split <;> exact h
    | addFail e =>
      simp only [Thread.step, MemCache.Get.step, MemCache._addFailCount]
      split <;> exact h
    | commit data d =>
      simp only [Thread.step, MemCache.Get.step, MapStore, storeWrites_append]
      by_cases hk : k = k'
      · subst hk; simp [storeWrites]
      · rw [Function.update_noteq hk]
        intro hc
        have hk' : ¬ k' = k := fun e => hk e.symm
        have hnil : storeWrites k [Event.storeSet k' data d] = [] := by
          simp [storeWrites, hk']
        rw [hnil, List.append_nil]
        exact h hc
    | _ => exact h

theorem StoreInv_stepAt (c : Config (Key → Option (Value × Duration))) (i : Nat)
    (h : StoreInv c) : StoreInv (Config.stepAt MapStore c i) := by
  unfold Config.stepAt
  cases hth : c.threads[i]? with
  | none => exact h
  | some th => exact fun k => Thread.step_storeInv th c.sys k (h k)

theorem StoreInv_runSchedule (sched : List Nat) :
    ∀ c : Config (Key → Option (Value × Duration)), StoreInv c →
      StoreInv (Config.runSchedule MapStore c sched) := by
  induction sched with
  | nil => intro c h; exact h
  | cons n rest ih => intro c h; exact ih _ (StoreInv_stepAt c n h)

/-- While the store keeps missing the key and the token is held, `Get` run
alone stays in its waiting loop. -/
theorem Get.run_waits {σ : Type} (ops : GCache σ) (k : Key) (f : DATALOADER) (P : σ → Prop)
    (hP : ∀ c, P c → (ops.Get c k).1.2 = some .KeyNotFoundError ∧ P (ops.Get c k).2) :
    ∀ (fuel : Nat) (pc : GetPc) (s : Sys σ), P s.t.cache → s.t.mpLoading k ≠ none →
      pc = .probe ∨ pc = .acquire ∨ pc = .sleep →
      MemCache.Get.run ops k f fuel pc s = none := by
  intro fuel
  induction fuel with
  | zero =>
    intro pc s _ _ hpc
    rcases hpc with rfl | rfl | rfl <;> simp [MemCache.Get.run]
  | succ n ih =>
    intro pc s hs hheld hpc
    rcases hpc with rfl | rfl | rfl
    · rw [Get.run_succ ops k f n _ s (by simp)]
      have := hP _ hs
      simp only [MemCache.Get.step, this.1]
      exact ih _ _ this.2 hheld (Or.inr (Or.inl (by simp)))
    · rw [Get.run_succ ops k f n _ s (by simp)]
      cases hm : s.t.mpLoading k with
      | none => exact absurd hm hheld
      | some a =>
        simp only [MemCache.Get.step, MemCache._setKeyLoadingIfNotExist, hm]
        exact ih _ _ hs hheld (Or.inr (Or.inr (by simp)))
    · rw [Get.run_succ ops k f n _ s (by simp)]
      simp only [MemCache.Get.step]
      exact ih _ _ hs hheld (Or.inl rfl)

/-! ## The claims -/

/-- C1 (mutual exclusion of fills). In every configuration reached from
`NewMemCache` by any interleaving `sched` of the atomic steps of any calls
`calls` (`Get`, `Delete`, `Has`, with any keys and loaders), for every key `k`
at most one goroutine is inside its fill section for `k` (two goroutines
inside it are the same goroutine), and whenever one is, `mpLoading` has an
entry for `k`. -/
theorem C1_mutual_exclusion {σ : Type} (ops : GCache σ) (size : Int) (calls : List Call)
    (sched : List Nat) (k : Key) :
    (∀ (i j : Nat) (ti tj : Thread),
      (Config.runSchedule ops (Config.init ops size calls) sched).threads[i]? = some ti →
      (Config.runSchedule ops (Config.init ops size calls) sched).threads[j]? = some tj →
      ti.inFill k = true → tj.inFill k = true → i = j) ∧
    (∀ (i : Nat) (ti : Thread),
      (Config.runSchedule ops (Config.init ops size calls) sched).threads[i]? = some ti →
      ti.inFill k = true →
      (Config.runSchedule ops (Config.init ops size calls) sched).sys.t.mpLoading k ≠ none) :=
  FillInv_runSchedule ops k sched _ (FillInv_init ops size calls k)

/-- C2 (single-flight), evaluated at an interleaving where it fails: two
concurrent `Get("k", okLoader)` calls on a fresh cache over a store that
retains what is written. Both probe the store before anything is committed;
goroutine 0 fills, commits and releases; goroutine 1, which does not probe
again, then takes the free token and fills a second time. Both calls return
`(7, nil)`, but the loader has been invoked twice. -/
theorem C2_two_gets_load_twice :
    MapStore.Has (NewMemCache MapStore 100).cache "k" = false ∧
    twoGetsRun.threads.map Thread.finished = [true, true] ∧
    twoGetsRun.threads.map Thread.result =
      [some (.ret (.data 7) none), some (.ret (.data 7) none)] ∧
    loaderArgs "k" twoGetsRun.sys.log = [0, 0] ∧
    storeWrites "k" twoGetsRun.sys.log = [(.data 7, 5), (.data 7, 5)] := by
  decide

/-- C3 (no stale commit after invalidation), evaluated at an interleaving where
it fails: the owner of the token for `"k"` reads its entry at line 66 (still
0) and is about to execute line 67; `Delete("k")` then runs from start to end
(the entry becomes 1, the store has no `"k"`) while the owner still holds the
token; the owner then writes its loaded value into the store, after that
`Delete`, and the value stays cached. -/
theorem C3_stale_commit_after_delete :
    (staleRunRead.threads.map Thread.getPc = [some (.commit (.data 7) 5), none] ∧
      staleRunRead.sys.t.mpLoading "k" = some 0) ∧
    (staleRunDeleted.threads.map Thread.finished = [false, true] ∧
      staleRunDeleted.threads.map (Thread.inFill "k") = [true, false] ∧
      staleRunDeleted.sys.t.mpLoading "k" = some 1 ∧
      MapStore.Has staleRunDeleted.sys.t.cache "k" = false) ∧
    (staleRunEnd.threads.map Thread.finished = [true, true] ∧
      staleRunEnd.sys.log =
        [.storeGet "k", .loaderCall "k" 0, .storeRemove "k", .storeSet "k" (.data 7) 5] ∧
      staleRunEnd.sys.t.cache "k" = some (.data 7, 5) ∧
      (MemCache.Has MapStore "k" staleRunEnd.sys).1 = true) := by
  decide

/-- C4 (delete-during-load discard). From any state where the store reports `k`
as not found and the token for `k` is free, over any store for which `Has(k)`
is false right after `Remove(k)`: `Get(k, fnLoader)` takes four steps (probe,
token, fail count, loader invoked: the loader is executing), `Delete(k)` then
runs completely, and the loader then returns `(v, ttl, nil)` with nothing else
interleaved. The `Get` returns `(v, nil)`; the only store calls of the run are
the probe and the `Remove` (no `SetWithExpire`); `Has(k)` is false afterwards
and `mpLoading` has no entry for `k`. -/
theorem C4_delete_during_load {σ : Type} (ops : GCache σ) (s : Sys σ) (k : Key)
    (fnLoader : DATALOADER) (v : Value) (ttl : Duration)
    (hremove : ∀ c, ops.Has (ops.Remove c k) k = false)
    (hmiss : (ops.Get s.t.cache k).1.2 = some .KeyNotFoundError)
    (hfree : s.t.mpLoading k = none)
    (hload : fnLoader (s.t._getFailCount k) = .ret v ttl none) :
    ∃ c1 c2 c3 : Config σ,
      Config.runSchedule ops ⟨s, [.get k fnLoader .probe, .delete k .setNeedReLoad]⟩ [0, 0, 0, 0]
        = c1 ∧
      c1.threads = [.get k fnLoader (.inLoader (s.t._getFailCount k)), .delete k .setNeedReLoad] ∧
      Config.runSchedule ops c1 [1, 1] = c2 ∧
      c2.threads = [.get k fnLoader (.inLoader (s.t._getFailCount k)), .delete k .done] ∧
      Config.runSchedule ops c2 [0, 0, 0, 0] = c3 ∧
      c3.threads = [.get k fnLoader (.done (.ret v none)), .delete k .done] ∧
      c3.sys.log =
        s.log ++ [.storeGet k, .loaderCall k (s.t._getFailCount k), .storeRemove k] ∧
      storeWrites k c3.sys.log = storeWrites k s.log ∧
      (MemCache.Has ops k c3.sys).1 = false ∧
      c3.sys.t.mpLoading k = none := by
  simp only [MemCache._getFailCount] at hload ⊢
  refine ⟨_, _, _, rfl, ?_, rfl, ?_, rfl, ?_⟩
  · simp [Config.runSchedule, Config.stepAt, Thread.step, MemCache.Get.step, hmiss, hfree,
      MemCache._setKeyLoadingIfNotExist, MemCache._getFailCount]
  · simp [Config.runSchedule, Config.stepAt, Thread.step, MemCache.Get.step, hmiss, hfree,
      MemCache._setKeyLoadingIfNotExist, MemCache._getFailCount, MemCache.Delete.step]
  · by_cases hn : 0 < (match s.t.failCount k with
            | some nCount => nCount
            | none => 0)
    · simp [Config.runSchedule, Config.stepAt, Thread.step, MemCache.Get.step, hmiss, hfree,
        MemCache._setKeyLoadingIfNotExist, MemCache._getFailCount, MemCache.Delete.step,
        MemCache._setKeyNeedReLoadIfInLoading, MemCache._readKeyLoading, MemCache._delFailCount,
        MemCache._delKeyLoading, MemCache.Has, storeWrites, hload, hn, hremove]
    · simp [Config.runSchedule, Config.stepAt, Thread.step, MemCache.Get.step, hmiss, hfree,
        MemCache._setKeyLoadingIfNotExist, MemCache._getFailCount, MemCache.Delete.step,
        MemCache._setKeyNeedReLoadIfInLoading, MemCache._readKeyLoading, MemCache._delFailCount,
        MemCache._delKeyLoading, MemCache.Has, storeWrites, hload, hn, hremove]

/-- Witness for C4: the run on the fresh cache over `MapStore`, key `"k"`, with `okLoader`. -/
theorem C4_witness :
    ∃ c1 c2 c3 : Config (Key → Option (Value × Duration)),
      Config.runSchedule MapStore
        ⟨freshSys, [.get "k" okLoader .probe, .delete "k" .setNeedReLoad]⟩ [0, 0, 0, 0] = c1 ∧
      c1.threads = [.get "k" okLoader (.inLoader (freshSys.t._getFailCount "k")),
        .delete "k" .setNeedReLoad] ∧
      Config.runSchedule MapStore c1 [1, 1] = c2 ∧
      c2.threads = [.get "k" okLoader (.inLoader (freshSys.t._getFailCount "k")),
        .delete "k" .done] ∧
      Config.runSchedule MapStore c2 [0, 0, 0, 0] = c3 ∧
      c3.threads = [.get "k" okLoader (.done (.ret (.data 7) none)), .delete "k" .done] ∧
      c3.sys.log = freshSys.log ++
        [.storeGet "k", .loaderCall "k" (freshSys.t._getFailCount "k"), .storeRemove "k"] ∧
      storeWrites "k" c3.sys.log = storeWrites "k" freshSys.log ∧
      (MemCache.Has MapStore "k" c3.sys).1 = false ∧
      c3.sys.t.mpLoading "k" = none :=
  C4_delete_during_load MapStore freshSys "k" okLoader (.data 7) 5
    (by intro c; simp [MapStore]) (by decide) (by decide) (by decide)

/-- C5 as stated fails where `failCount` holds an entry that is not positive:
with `failCount["k"] = 0`, the store missing `"k"`, the token free and a
loader returning `(7, 5, nil)`, `Get` returns `(7, nil)` but `failCount` still
has its entry for `"k"` (line 62 tests `nFail > 0`). -/
theorem C5_counterexample :
    (MapStore.Get (failSys 0).t.cache "k").1.2 = some .KeyNotFoundError ∧
    (failSys 0).t.mpLoading "k" = none ∧
    okLoader ((failSys 0).t._getFailCount "k") = .ret (.data 7) 5 none ∧
    ((MemCache.Get MapStore 9 "k" okLoader (failSys 0)).map
      fun x => (x.1, x.2.t.failCount "k")) = some (.ret (.data 7) none, some 0) := by
  decide

/-- C5 amended (successful fill postcondition). In every state where the store
reports `k` as not found, `mpLoading` has no entry for `k` and the fail count
stored for `k`, if there is one, is positive, and for every loader returning
`(v, ttl, nil)` on the stored fail count: `Get(k, loader)` run alone returns
`(v, nil)`; its actions are exactly the probe, one loader invocation with the
stored fail count (0 if none) and `SetWithExpire(k, v, ttl)`; afterwards
neither `failCount` nor `mpLoading` has an entry for `k`. -/
theorem C5_successful_fill {σ : Type} (ops : GCache σ) (s : Sys σ) (k : Key)
    (fnLoader : DATALOADER) (v : Value) (ttl : Duration)
    (hmiss : (ops.Get s.t.cache k).1.2 = some .KeyNotFoundError)
    (hfree : s.t.mpLoading k = none)
    (hpos : ∀ n, s.t.failCount k = some n → 0 < n)
    (hload : fnLoader (s.t._getFailCount k) = .ret v ttl none) :
    ∃ s' : Sys σ,
      (∀ fuel, 9 ≤ fuel → MemCache.Get ops fuel k fnLoader s = some (.ret v none, s')) ∧
      s'.log = s.log ++ [.storeGet k, .loaderCall k (s.t._getFailCount k), .storeSet k v ttl] ∧
      s'.t.cache = ops.SetWithExpire (ops.Get s.t.cache k).2 k v ttl ∧
      s'.t.failCount k = none ∧
      s'.t.mpLoading k = none := by
  obtain ⟨s', hrun, hlog, hcache, hmp, hfc⟩ := Get.fill_ok ops s k fnLoader v ttl hmiss hfree hload
  refine ⟨s', hrun, hlog, hcache, ?_, by rw [hmp, hfree]⟩
  rw [hfc]
  cases hk : s.t.failCount k with
  | none => simp [MemCache._getFailCount, hk]
  | some n => simp [MemCache._getFailCount, hk, hpos n hk]

/-- Witness for C5: `failCount["k"] = 3` on the otherwise fresh cache over `MapStore`. -/
theorem C5_witness :
    ∃ s' : Sys (Key → Option (Value × Duration)),
      (∀ fuel, 9 ≤ fuel →
        MemCache.Get MapStore fuel "k" okLoader (failSys 3) = some (.ret (.data 7) none, s')) ∧
      s'.log = (failSys 3).log ++
        [.storeGet "k", .loaderCall "k" ((failSys 3).t._getFailCount "k"),
          .storeSet "k" (.data 7) 5] ∧
      s'.t.cache =
        MapStore.SetWithExpire (MapStore.Get (failSys 3).t.cache "k").2 "k" (.data 7) 5 ∧
      s'.t.failCount "k" = none ∧
      s'.t.mpLoading "k" = none :=
  C5_successful_fill MapStore (failSys 3) "k" okLoader (.data 7) 5 (by decide) (by decide)
    (by intro n hn; simp [failSys] at hn; omega) (by decide)

/-- C6 as stated fails at the largest `int`: with `failCount["k"] = 2^63 - 1`,
the store missing `"k"`, the token free and a failing loader, `Get` returns
`(nil, e)` and leaves `failCount["k"] = -2^63`, not the previous value plus
one (line 136 adds in Go `int` arithmetic, which wraps around). -/
theorem C6_counterexample :
    (MapStore.Get (failSys 9223372036854775807).t.cache "k").1.2 = some .KeyNotFoundError ∧
    (failSys 9223372036854775807).t.mpLoading "k" = none ∧
    errLoader ((failSys 9223372036854775807).t._getFailCount "k") =
      .ret .nil 0 (some (.other 1)) ∧
    ((MemCache.Get MapStore 7 "k" errLoader (failSys 9223372036854775807)).map
      fun x => (x.1, x.2.t.failCount "k")) =
      some (.ret .nil (some (.other 1)), some (-9223372036854775808)) ∧
    (-9223372036854775808 : Int) ≠ 9223372036854775807 + 1 := by
  decide

/-- C6 amended (failed fill postcondition). In every state where the store
reports `k` as not found and `mpLoading` has no entry for `k`, and for every
loader returning a non-nil error `e` on the stored fail count: `Get(k, loader)`
run alone returns `(nil, e)`; its only actions are the probe and one loader
invocation, so nothing is written to the store (and `Has(k)` is false
afterwards for a store that does not hold a key it has just reported as not
found); `failCount[k]` becomes 1 if there was no entry and otherwise the
previous value plus one in Go `int` arithmetic, which is the previous value
plus one whenever the previous value is an `int` below the largest one;
`mpLoading` has no entry for `k`, so the next `_setKeyLoadingIfNotExist(k)`
returns true: a following `Get(k, L2)` whose probe still misses takes the token
at its first attempt. -/
theorem C6_failed_fill {σ : Type} (ops : GCache σ) (s : Sys σ) (k : Key)
    (fnLoader : DATALOADER) (data : Value) (d : Duration) (e : Error)
    (hmiss : (ops.Get s.t.cache k).1.2 = some .KeyNotFoundError)
    (hfree : s.t.mpLoading k = none)
    (hload : fnLoader (s.t._getFailCount k) = .ret data d (some e)) :
    ∃ s' : Sys σ,
      (∀ fuel, 7 ≤ fuel → MemCache.Get ops fuel k fnLoader s = some (.ret .nil (some e), s')) ∧
      s'.log = s.log ++ [.storeGet k, .loaderCall k (s.t._getFailCount k)] ∧
      s'.t.cache = (ops.Get s.t.cache k).2 ∧
      ((∀ c, (ops.Get c k).1.2 = some .KeyNotFoundError → ops.Has (ops.Get c k).2 k = false) →
        (MemCache.Has ops k s').1 = false) ∧
      (s.t.failCount k = none → s'.t.failCount k = some 1) ∧
      (∀ n, s.t.failCount k = some n → s'.t.failCount k = some (wrapInt (n + 1))) ∧
      (∀ n, s.t.failCount k = some n → minInt ≤ n → n < maxInt →
        s'.t.failCount k = some (n + 1)) ∧
      s'.t.mpLoading k = none ∧
      (s'.t._setKeyLoadingIfNotExist k).1 = true ∧
      (∀ L2 : DATALOADER, (ops.Get s'.t.cache k).1.2 = some .KeyNotFoundError →
        (MemCache.Get.step ops k L2 .probe s').1 = .acquire ∧
        (MemCache.Get.step ops k L2 .acquire (MemCache.Get.step ops k L2 .probe s').2).1 =
          .getFail) := by
  obtain ⟨s', hrun, hlog, hcache, hmp, hfc⟩ :=
    Get.fill_err ops s k fnLoader data d e hmiss hfree hload
  have hmp' : s'.t.mpLoading k = none := by rw [hmp, hfree]
  refine ⟨s', hrun, hlog, hcache, fun hcoh => ?_, fun h => ?_, fun n h => ?_,
    fun n h hge hlt => ?_, hmp', by simp [MemCache._setKeyLoadingIfNotExist, hmp'],
    fun L2 h2 => ?_⟩
  · simp [MemCache.Has, hcache, hcoh _ hmiss]
  · simp [hfc, h]
  · simp [hfc, h]
  · simp only [hfc, h, Function.update_same]
    rw [wrapInt_of_range (n + 1) (by omega) (by omega)]
  · simp [MemCache.Get.step, h2, MemCache._setKeyLoadingIfNotExist, hmp']

/-- Witness for C6: `failCount["k"] = 3` on the otherwise fresh cache over `MapStore`. -/
theorem C6_witness :
    ∃ s' : Sys (Key → Option (Value × Duration)),
      (∀ fuel, 7 ≤ fuel → MemCache.Get MapStore fuel "k" errLoader (failSys 3) =
        some (.ret .nil (some (.other 1)), s')) ∧
      s'.log = (failSys 3).log ++
        [.storeGet "k", .loaderCall "k" ((failSys 3).t._getFailCount "k")] ∧
      s'.t.cache = (MapStore.Get (failSys 3).t.cache "k").2 ∧
      ((∀ c, (MapStore.Get c "k").1.2 = some .KeyNotFoundError →
          MapStore.Has (MapStore.Get c "k").2 "k" = false) →
        (MemCache.Has MapStore "k" s').1 = false) ∧
      ((failSys 3).t.failCount "k" = none → s'.t.failCount "k" = some 1) ∧
      (∀ n, (failSys 3).t.failCount "k" = some n → s'.t.failCount "k" = some (wrapInt (n + 1))) ∧
      (∀ n, (failSys 3).t.failCount "k" = some n → minInt ≤ n → n < maxInt →
        s'.t.failCount "k" = some (n + 1)) ∧
      s'.t.mpLoading "k" = none ∧
      (s'.t._setKeyLoadingIfNotExist "k").1 = true ∧
      (∀ L2 : DATALOADER, (MapStore.Get s'.t.cache "k").1.2 = some .KeyNotFoundError →
        (MemCache.Get.step MapStore "k" L2 .probe s').1 = .acquire ∧
        (MemCache.Get.step MapStore "k" L2 .acquire
          (MemCache.Get.step MapStore "k" L2 .probe s').2).1 = .getFail) :=
  C6_failed_fill MapStore (failSys 3) "k" errLoader .nil 0 (.other 1) (by decide) (by decide)
    (by decide)

/-- C7 as stated fails once the count leaves the range of `int`: after 2^63
failed fills of `"k"` on a fresh cache, the succeeding loader receives
`nFail = -2^63`, not 2^63. -/
theorem C7_counterexample :
    ∃ s1 r2 s2,
      seqGets MapStore 9 "k" (List.replicate (2 ^ 63) errLoader) freshSys = some s1 ∧
      MemCache.Get MapStore 9 "k" okLoader s1 = some (r2, s2) ∧
      loaderArgs "k" s2.log = loaderArgs "k" s1.log ++ [-(2 ^ 63)] ∧
      (-(2 ^ 63) : Int) ≠ ((2 ^ 63 : Nat) : Int) := by
  obtain ⟨s1, r2, s2, hseq, -, hrun2, hlog2, -, -⟩ :=
    seqGets_fails_then_ok "k" 100 9 (by decide) (List.replicate (2 ^ 63) errLoader) okLoader
      (by intro f hf nFail; rw [List.eq_of_mem_replicate hf]; exact ⟨_, _, _, rfl⟩)
      (fun _ => ⟨_, _, rfl⟩)
  refine ⟨s1, r2, s2, hseq, hrun2, ?_, by norm_num⟩
  rw [hlog2, List.length_replicate]
  have hw : wrapInt ((2 ^ 63 : Nat) : Int) = -(2 ^ 63) := by
    unfold wrapInt intBits
    norm_num
  rw [hw]

/-- C7 amended (fail-count sequence and reset). On a fresh cache over a store
that retains what is written, for every key `k` and every run of `n` calls
`Get(k, failing loader)` with `n` at most the largest `int` (2^63 - 1),
followed by `Get(k, succeeding loader)`, `Delete(k)` and one more `Get(k, next)`,
each call run alone: all calls return; the failing loaders receive
`nFail = 0, 1, ..., n-1` in this order, the succeeding loader receives `n`,
and the loader invoked after the `Delete` receives 0. -/
theorem C7_fail_count_sequence (k : Key) (size : Int) (fuel : Nat) (hfuel : 9 ≤ fuel)
    (fails : List DATALOADER) (okL next : DATALOADER)
    (hn : (fails.length : Int) ≤ maxInt)
    (hfails : ∀ f ∈ fails, AlwaysFails f) (hok : AlwaysSucceeds okL) :
    ∃ s1 r2 s2 r3 s3,
      seqGets MapStore fuel k fails ⟨NewMemCache MapStore size, []⟩ = some s1 ∧
      loaderArgs k s1.log = (List.range fails.length).map (fun i : Nat => (i : Int)) ∧
      MemCache.Get MapStore fuel k okL s1 = some (r2, s2) ∧
      loaderArgs k s2.log = loaderArgs k s1.log ++ [(fails.length : Int)] ∧
      MemCache.Get MapStore fuel k next (MemCache.Delete MapStore k s2) = some (r3, s3) ∧
      loaderArgs k s3.log = loaderArgs k s2.log ++ [0] := by
  obtain ⟨s1, r2, s2, hseq, hlog1, hrun2, hlog2, hmp2, hfc2⟩ :=
    seqGets_fails_then_ok k size fuel hfuel fails okL hfails hok
  have hw : ∀ i : Nat, i ≤ fails.length → wrapInt (i : Int) = (i : Int) := fun i hi =>
    wrapInt_of_range _ (by unfold minInt intBits; norm_num; omega) (by omega)
  have hfc0 : s2.t._getFailCount k = 0 := by
    rw [hfc2, hw _ le_rfl]
    split
    · rfl
    · omega
  have hmiss3 : ((MemCache.Delete MapStore k s2).t.cache k) = none := by
    simp [Delete_eq, MapStore, MemCache._setKeyNeedReLoadIfInLoading, hmp2]
  have hfree3 : (MemCache.Delete MapStore k s2).t.mpLoading k = none := by
    simp [Delete_eq, MemCache._setKeyNeedReLoadIfInLoading, hmp2]
  obtain ⟨r3, s3, hrun3, hlog3⟩ :=
    Get.fill_any MapStore (MemCache.Delete MapStore k s2) k next (MapStore_miss _ k hmiss3).1 hfree3
  refine ⟨s1, r2, s2, r3, s3, hseq, ?_, hrun2, ?_, hrun3 fuel hfuel, ?_⟩
  · rw [hlog1]
    apply List.map_congr_left
    intro i hi
    exact hw i (le_of_lt (List.mem_range.mp hi))
  · rw [hlog2, hw _ le_rfl]
  · rw [hlog3]
    have : (MemCache.Delete MapStore k s2).t._getFailCount k = s2.t._getFailCount k := by
      simp [Delete_eq, MemCache._setKeyNeedReLoadIfInLoading, hmp2, MemCache._getFailCount]
    rw [this, hfc0]
    simp [Delete_eq, loaderArgs]

/-- Witness for C7: two failed fills of `"k"`, a successful one, `Delete`, and one more. -/
theorem C7_witness :
    ∃ s1 r2 s2 r3 s3,
      seqGets MapStore 9 "k" [errLoader, errLoader] ⟨NewMemCache MapStore 100, []⟩ = some s1 ∧
      loaderArgs "k" s1.log =
        (List.range [errLoader, errLoader].length).map (fun i : Nat => (i : Int)) ∧
      MemCache.Get MapStore 9 "k" okLoader s1 = some (r2, s2) ∧
      loaderArgs "k" s2.log = loaderArgs "k" s1.log ++ [([errLoader, errLoader].length : Int)] ∧
      MemCache.Get MapStore 9 "k" errLoader (MemCache.Delete MapStore "k" s2) = some (r3, s3) ∧
      loaderArgs "k" s3.log = loaderArgs "k" s2.log ++ [0] :=
  C7_fail_count_sequence "k" 100 9 (by decide) [errLoader, errLoader] okLoader errLoader
    (by decide)
    (by intro f hf nFail; simp at hf; subst hf; exact ⟨_, _, _, rfl⟩)
    (fun _ => ⟨_, _, rfl⟩)

/-- C8 (hit path). In every state, if `Get(k)` of the store returns `v` with a
nil error, then the first step of `Get(k, fnLoader)` returns `(v, nil)`; the
only action of the call is that one store `Get` (the loader is not invoked, no
`SetWithExpire` and no `Remove` is issued); `mpLoading` and `failCount` are
unchanged and the store is as its own `Get` left it, hence the whole cache is
unchanged when `Get` of the store leaves the store unchanged. -/
theorem C8_hit_path {σ : Type} (ops : GCache σ) (s : Sys σ) (k : Key) (fnLoader : DATALOADER)
    (v : Value) (hhit : (ops.Get s.t.cache k).1 = (v, none)) :
    (MemCache.Get.step ops k fnLoader .probe s).1 = .done (.ret v none) ∧
    ∃ s' : Sys σ,
      (∀ fuel, 1 ≤ fuel → MemCache.Get ops fuel k fnLoader s = some (.ret v none, s')) ∧
      s'.t.mpLoading = s.t.mpLoading ∧ s'.t.failCount = s.t.failCount ∧
      s'.t.cache = (ops.Get s.t.cache k).2 ∧
      s'.log = s.log ++ [.storeGet k] ∧
      ((ops.Get s.t.cache k).2 = s.t.cache → s'.t = s.t) := by
  refine ⟨by simp [MemCache.Get.step, hhit],
    ⟨{ s.t with cache := (ops.Get s.t.cache k).2 }, s.log ++ [.storeGet k]⟩,
    fun fuel hf => Get.hit ops s k fnLoader v hhit fuel hf, rfl, rfl, rfl, rfl, fun h => ?_⟩
  simp [h]

/-- Witness for C8: `"k"` cached as 7 in `MapStore`. -/
theorem C8_witness :
    (MemCache.Get.step MapStore "k" errLoader .probe hitSys).1 = .done (.ret (.data 7) none) ∧
    ∃ s' : Sys (Key → Option (Value × Duration)),
      (∀ fuel, 1 ≤ fuel →
        MemCache.Get MapStore fuel "k" errLoader hitSys = some (.ret (.data 7) none, s')) ∧
      s'.t.mpLoading = hitSys.t.mpLoading ∧ s'.t.failCount = hitSys.t.failCount ∧
      s'.t.cache = (MapStore.Get hitSys.t.cache "k").2 ∧
      s'.log = hitSys.log ++ [.storeGet "k"] ∧
      ((MapStore.Get hitSys.t.cache "k").2 = hitSys.t.cache → s'.t = hitSys.t) :=
  C8_hit_path MapStore hitSys "k" errLoader (.data 7) (by decide)

/-- C9 (miss-then-hit). Over any store whose `Get(k)` right after
`SetWithExpire(k, v, ttl)` returns `v`: from a state where the store reports
`k` as not found and the token is free, after `Get(k, L1)` run alone, whose
loader returned `(v, ttl, nil)`, a following `Get(k, L2)` returns `(v, nil)`
with the store probe as its only action: `L2` is not invoked. -/
theorem C9_miss_then_hit {σ : Type} (ops : GCache σ) (s : Sys σ) (k : Key)
    (L1 L2 : DATALOADER) (v : Value) (ttl : Duration)
    (hretain : ∀ c, (ops.Get (ops.SetWithExpire c k v ttl) k).1 = (v, none))
    (hmiss : (ops.Get s.t.cache k).1.2 = some .KeyNotFoundError)
    (hfree : s.t.mpLoading k = none)
    (hload : L1 (s.t._getFailCount k) = .ret v ttl none) :
    ∃ s1 s2 : Sys σ,
      (∀ fuel, 9 ≤ fuel → MemCache.Get ops fuel k L1 s = some (.ret v none, s1)) ∧
      (∀ fuel, 1 ≤ fuel → MemCache.Get ops fuel k L2 s1 = some (.ret v none, s2)) ∧
      s2.log = s1.log ++ [.storeGet k] ∧
      loaderArgs k s2.log = loaderArgs k s1.log := by
  obtain ⟨s1, hrun, -, hcache, -, -⟩ := Get.fill_ok ops s k L1 v ttl hmiss hfree hload
  have hhit : (ops.Get s1.t.cache k).1 = (v, none) := by rw [hcache]; exact hretain _
  refine ⟨s1, _, hrun, fun fuel hf => Get.hit ops s1 k L2 v hhit fuel hf, rfl, ?_⟩
  simp [loaderArgs]

/-- Witness for C9: the fresh cache over `MapStore`, key `"k"`. -/
theorem C9_witness :
    ∃ s1 s2 : Sys (Key → Option (Value × Duration)),
      (∀ fuel, 9 ≤ fuel →
        MemCache.Get MapStore fuel "k" okLoader freshSys = some (.ret (.data 7) none, s1)) ∧
      (∀ fuel, 1 ≤ fuel →
        MemCache.Get MapStore fuel "k" errLoader s1 = some (.ret (.data 7) none, s2)) ∧
      s2.log = s1.log ++ [.storeGet "k"] ∧
      loaderArgs "k" s2.log = loaderArgs "k" s1.log :=
  C9_miss_then_hit MapStore freshSys "k" okLoader errLoader (.data 7) 5
    (by intro c; simp [MapStore]) (by decide) (by decide) (by decide)

/-- C10 (store fault propagation). In every state, if `Get(k)` of the store
returns an error `e` other than `KeyNotFoundError`, then the first step of
`Get(k, fnLoader)` returns `(nil, e)`; the only action of the call is that one
store `Get` (the loader is not invoked, no token is taken); `mpLoading` and
`failCount` are unchanged and the store is as its own `Get` left it. -/
theorem C10_store_fault {σ : Type} (ops : GCache σ) (s : Sys σ) (k : Key)
    (fnLoader : DATALOADER) (v : Value) (e : Error)
    (hfault : (ops.Get s.t.cache k).1 = (v, some e)) (hne : e ≠ .KeyNotFoundError) :
    (MemCache.Get.step ops k fnLoader .probe s).1 = .done (.ret .nil (some e)) ∧
    ∃ s' : Sys σ,
      (∀ fuel, 1 ≤ fuel → MemCache.Get ops fuel k fnLoader s = some (.ret .nil (some e), s')) ∧
      s'.t.mpLoading = s.t.mpLoading ∧ s'.t.failCount = s.t.failCount ∧
      s'.t.cache = (ops.Get s.t.cache k).2 ∧
      s'.log = s.log ++ [.storeGet k] ∧
      ((ops.Get s.t.cache k).2 = s.t.cache → s'.t = s.t) := by
  have hstep : MemCache.Get.step ops k fnLoader .probe s =
      (.done (.ret .nil (some e)),
        ⟨{ s.t with cache := (ops.Get s.t.cache k).2 }, s.log ++ [.storeGet k]⟩) := by
    simp [MemCache.Get.step, hfault, hne]
  refine ⟨by rw [hstep], ⟨{ s.t with cache := (ops.Get s.t.cache k).2 }, s.log ++ [.storeGet k]⟩,
    fun fuel hf => ?_, rfl, rfl, rfl, rfl, fun h => ?_⟩
  · apply Get.run_le ops k fnLoader 1 fuel _ _ _ _ hf
    simp [MemCache.Get.run, hstep]
  · simp [h]

/-- Witness for C10: a store whose `Get` always fails with another error. -/
theorem C10_witness :
    (MemCache.Get.step faultyStore "k" okLoader .probe ⟨NewMemCache faultyStore 100, []⟩).1 =
      .done (.ret .nil (some (.other 2))) ∧
    ∃ s' : Sys Unit,
      (∀ fuel, 1 ≤ fuel →
        MemCache.Get faultyStore fuel "k" okLoader ⟨NewMemCache faultyStore 100, []⟩ =
          some (.ret .nil (some (.other 2)), s')) ∧
      s'.t.mpLoading = (NewMemCache faultyStore 100).mpLoading ∧
      s'.t.failCount = (NewMemCache faultyStore 100).failCount ∧
      s'.t.cache = (faultyStore.Get (NewMemCache faultyStore 100).cache "k").2 ∧
      s'.log = [] ++ [.storeGet "k"] ∧
      ((faultyStore.Get (NewMemCache faultyStore 100).cache "k").2 =
        (NewMemCache faultyStore 100).cache → s'.t = NewMemCache faultyStore 100) :=
  C10_store_fault faultyStore ⟨NewMemCache faultyStore 100, []⟩ "k" okLoader .nil (.other 2)
    (by decide) (by decide)

/-- C11 (Delete postcondition). For every state and key `k`, after `Delete(k)`:
(a) `mpLoading[k]` is 1 if and only if `mpLoading` had an entry for `k`
before, and there is no entry when there was none; (b) the one store call
issued is `Remove(k)`, in both cases; the entries of `mpLoading` for the other
keys and the whole of `failCount` are unchanged. -/
theorem C11_delete_postcondition {σ : Type} (ops : GCache σ) (s : Sys σ) (k : Key) :
    ((MemCache.Delete ops k s).t.mpLoading k = some 1 ↔ s.t.mpLoading k ≠ none) ∧
    ((MemCache.Delete ops k s).t.mpLoading k = none ↔ s.t.mpLoading k = none) ∧
    (MemCache.Delete ops k s).log = s.log ++ [.storeRemove k] ∧
    (MemCache.Delete ops k s).t.cache = ops.Remove s.t.cache k ∧
    (∀ k', k' ≠ k → (MemCache.Delete ops k s).t.mpLoading k' = s.t.mpLoading k') ∧
    (MemCache.Delete ops k s).t.failCount = s.t.failCount := by
  rw [Delete_eq]
  cases h : s.t.mpLoading k with
  | none => simp [MemCache._setKeyNeedReLoadIfInLoading, h]
  | some n =>
    simp [MemCache._setKeyNeedReLoadIfInLoading, h]
    intro k' hk'
    exact Function.update_noteq hk' _ _

/-- C12 (token release on every exit of the fill section). For every key `k`,
every loader (it may return a value, return an error or panic) and every
state, whatever `mpLoading` holds for `k`: from every control point of the
fill section `Get(k, loader)` run alone returns within 7 steps and `mpLoading`
then has no entry for `k`; the deferred release step deletes the entry and
returns; in any interleaving, a step by which a goroutine leaves its fill
section for a key is that release and leaves no entry for the key; and a step
that creates an entry for a key is the token acquisition of a `Get` on that
key, which enters its fill section, and the entry is created with value 0. -/
theorem C12_token_release {σ : Type} (ops : GCache σ) (k : Key) (fnLoader : DATALOADER)
    (pc : GetPc) (s : Sys σ) (hpc : pc.inFill = true) :
    (∃ (r : GetReturn) (s' : Sys σ),
      (∀ fuel, 7 ≤ fuel → MemCache.Get.run ops k fnLoader fuel pc s = some (r, s')) ∧
      s'.t.mpLoading k = none) ∧
    (∀ (r : GetReturn) (s0 : Sys σ),
      (MemCache.Get.step ops k fnLoader (.release r) s0).1 = .done r ∧
      (MemCache.Get.step ops k fnLoader (.release r) s0).2.t.mpLoading k = none) ∧
    (∀ (th : Thread) (s0 : Sys σ) (k0 : Key),
      th.inFill k0 = true → (th.step ops s0).1.inFill k0 = false →
      (th.step ops s0).2.t.mpLoading k0 = none ∧ ∃ f r, th = .get k0 f (.release r)) ∧
    (∀ (th : Thread) (s0 : Sys σ) (k0 : Key),
      s0.t.mpLoading k0 = none → (th.step ops s0).2.t.mpLoading k0 ≠ none →
      (th.step ops s0).2.t.mpLoading k0 = some 0 ∧
      ∃ f, th = .get k0 f .acquire ∧ (th.step ops s0).1 = .get k0 f .getFail) := by
  refine ⟨Get.exits_inFill ops k fnLoader pc s hpc, fun r s0 => ?_,
    fun th s0 k0 hin hout => Thread.step_leave_fill ops th s0 k0 hin hout,
    fun th s0 k0 hfree hnew => ?_⟩
  · simp [MemCache.Get.step, MemCache._delKeyLoading]
  · rcases Thread.step_mpLoading ops th s0 k0 with h | ⟨-, h2, f, rfl⟩ | ⟨h1, -⟩ | ⟨h1, -⟩
    · rw [h] at hnew; exact absurd hfree hnew
    · refine ⟨h2, f, rfl, ?_⟩
      simp [Thread.step, MemCache.Get.step, MemCache._setKeyLoadingIfNotExist, hfree]
    · exact absurd hfree h1
    · exact absurd hfree h1

/-- Witness for C12: the owner about to commit while `Delete("k")` has set the entry to 1. -/
theorem C12_witness :
    (∃ (r : GetReturn) (s' : Sys (Key → Option (Value × Duration))),
      (∀ fuel, 7 ≤ fuel →
        MemCache.Get.run MapStore "k" okLoader fuel (.commit (.data 7) 5) staleRunDeleted.sys =
          some (r, s')) ∧
      s'.t.mpLoading "k" = none) ∧
    (∀ (r : GetReturn) (s0 : Sys (Key → Option (Value × Duration))),
      (MemCache.Get.step MapStore "k" okLoader (.release r) s0).1 = .done r ∧
      (MemCache.Get.step MapStore "k" okLoader (.release r) s0).2.t.mpLoading "k" = none) ∧
    (∀ (th : Thread) (s0 : Sys (Key → Option (Value × Duration))) (k0 : Key),
      th.inFill k0 = true → (th.step MapStore s0).1.inFill k0 = false →
      (th.step MapStore s0).2.t.mpLoading k0 = none ∧ ∃ f r, th = .get k0 f (.release r)) ∧
    (∀ (th : Thread) (s0 : Sys (Key → Option (Value × Duration))) (k0 : Key),
      s0.t.mpLoading k0 = none → (th.step MapStore s0).2.t.mpLoading k0 ≠ none →
      (th.step MapStore s0).2.t.mpLoading k0 = some 0 ∧
      ∃ f, th = .get k0 f .acquire ∧ (th.step MapStore s0).1 = .get k0 f .getFail) :=
  C12_token_release MapStore "k" okLoader (.commit (.data 7) 5) staleRunDeleted.sys (by decide)

/-- C13 (fail-count frame). For every key `k`: a step of any goroutine either
leaves `failCount[k]` as it is, or is `_addFailCount(k)` at line 58 of a `Get`
on `k` (the entry becomes 1 if there was none, else the previous value plus
one in Go `int` arithmetic, which is the previous value plus one below the
largest `int`), or is `_delFailCount(k)` at line 63 of a `Get` on `k` (the
entry is removed); line 58 is reached only when the loader returned an error
and line 63 only when it returned no error; a `Get` on another key, whatever
its outcome, a `Get` on `k` whose probe hits or meets a store fault, `Delete`
of any key and `Has` of any key leave `failCount[k]` unchanged. -/
theorem C13_fail_count_frame {σ : Type} (ops : GCache σ) (k : Key) :
    (∀ (th : Thread) (s : Sys σ),
      (th.step ops s).2.t.failCount k = s.t.failCount k ∨
      ((∃ f e, th = .get k f (.addFail e)) ∧
        (th.step ops s).2.t.failCount k =
          some (match s.t.failCount k with
            | some nCount => wrapInt (nCount + 1)
            | none => 1)) ∨
      ((∃ f data d, th = .get k f (.delFail data d)) ∧
        (th.step ops s).2.t.failCount k = none)) ∧
    (∀ (f : DATALOADER) (pc : GetPc) (s : Sys σ) (e : Error),
      (MemCache.Get.step ops k f pc s).1 = .addFail e →
      ∃ nFail data d, pc = .inLoader nFail ∧ f nFail = .ret data d (some e)) ∧
    (∀ (f : DATALOADER) (pc : GetPc) (s : Sys σ) (data : Value) (d : Duration),
      (MemCache.Get.step ops k f pc s).1 = .delFail data d →
      ∃ nFail, pc = .inLoader nFail ∧ f nFail = .ret data d none ∧ 0 < nFail) ∧
    (∀ (n : Int), minInt ≤ n → n < maxInt → wrapInt (n + 1) = n + 1) ∧
    (∀ (k' : Key) (f : DATALOADER) (fuel : Nat) (pc : GetPc) (s : Sys σ) (r : GetReturn)
      (s' : Sys σ), k' ≠ k → MemCache.Get.run ops k' f fuel pc s = some (r, s') →
      s'.t.failCount k = s.t.failCount k) ∧
    (∀ (f : DATALOADER) (fuel : Nat) (s : Sys σ) (r : GetReturn) (s' : Sys σ),
      (ops.Get s.t.cache k).1.2 ≠ some .KeyNotFoundError →
      MemCache.Get ops fuel k f s = some (r, s') → s'.t.failCount = s.t.failCount) ∧
    (∀ (k' : Key) (s : Sys σ), (MemCache.Delete ops k' s).t.failCount = s.t.failCount) ∧
    (∀ (k' : Key) (s : Sys σ), (MemCache.Has ops k' s).2.t.failCount = s.t.failCount) := by
  refine ⟨fun th s => Thread.step_failCount ops th s k, ?_, ?_,
    fun n h0 h1 => wrapInt_of_range (n + 1) (by omega) (by omega),
    fun k' f fuel pc s r s' hk h => Get.run_failCount_other ops k k' f hk fuel pc s r s' h,
    fun f fuel s r s' h hrun => (Get.run_no_fill ops k f s h fuel r s' hrun).1, ?_, ?_⟩
  · intro f pc s e h
    cases pc with
    | inLoader nFail =>
      simp only [MemCache.Get.step] at h
      split at h
      · simp at h
      · rename_i data d err heq
        simp at h
        exact ⟨nFail, data, d, rfl, by rw [heq, h]⟩
      · split at h <;> simp at h
    | probe =>
      simp only [MemCache.Get.step] at h
      split at h <;> [skip; split at h] <;> simp at h
    | readLoading data d =>
      simp only [MemCache.Get.step] at h
      split at h <;> simp at h
    | acquire =>
      simp only [MemCache.Get.step] at h
      split at h <;> simp at h
    | _ => simp [MemCache.Get.step] at h
  · intro f pc s data d h
    cases pc with
    | inLoader nFail =>
      simp only [MemCache.Get.step] at h
      split at h
      · simp at h
      · simp at h
      · rename_i data' d' heq
        split at h
        · rename_i hpos
          simp at h
          exact ⟨nFail, rfl, by rw [heq, h.1, h.2], hpos⟩
        · simp at h
    | probe =>
      simp only [MemCache.Get.step] at h
      split at h <;> [skip; split at h] <;> simp at h
    | readLoading data d =>
      simp only [MemCache.Get.step] at h
      split at h <;> simp at h
    | acquire =>
      simp only [MemCache.Get.step] at h
      split at h <;> simp at h
    | _ => simp [MemCache.Get.step] at h
  · intro k' s
    rw [Delete_eq]
    simp only [MemCache._setKeyNeedReLoadIfInLoading]
    split <;> rfl
  · intro k' s
    simp [MemCache.Has, MemCache.Has.step]

/-- C14 (`Has` is a pure pass-through). For every state and key `k`, `Has(k)`
returns exactly what `Has(k)` of the store returns, its one action is that
store call, and the cache (`mpLoading`, `failCount`, the store) is unchanged;
in particular when a fill for `k` is in flight and the store does not hold
`k`, `Has(k)` is false: over a store that retains what is written, in every
configuration reached from `NewMemCache` in which `mpLoading` has an entry
for `k` and no `SetWithExpire` for `k` has been issued yet, `Has(k)` is false. -/
theorem C14_has_pass_through {σ : Type} (ops : GCache σ) (s : Sys σ) (k : Key) :
    (MemCache.Has ops k s).1 = ops.Has s.t.cache k ∧
    (MemCache.Has ops k s).2.t = s.t ∧
    (MemCache.Has ops k s).2.log = s.log ++ [.storeHas k] ∧
    (s.t.mpLoading k ≠ none → ops.Has s.t.cache k = false → (MemCache.Has ops k s).1 = false) ∧
    (∀ (size : Int) (calls : List Call) (sched : List Nat),
      (Config.reached MapStore size calls sched).sys.t.mpLoading k ≠ none →
      storeWrites k (Config.reached MapStore size calls sched).sys.log = [] →
      (MemCache.Has MapStore k (Config.reached MapStore size calls sched).sys).1 = false) := by
  refine ⟨rfl, rfl, rfl, fun _ h => h, fun size calls sched _ hw => ?_⟩
  have hinv : StoreInv (Config.reached MapStore size calls sched) :=
    StoreInv_runSchedule sched _ (by intro k hk; simp [Config.init, NewMemCache, MapStore] at hk)
  have := hinv k
  show ((Config.reached MapStore size calls sched).sys.t.cache k).isSome = false
  cases hc : (Config.reached MapStore size calls sched).sys.t.cache k with
  | none => rfl
  | some e => exact absurd hw (this (by rw [hc]; simp))

/-- C15 (`Delete` no-op). Over a store for which `Remove` of a key it does not
hold leaves it unchanged: in every state where `mpLoading` has no entry for
`k` and the store does not hold `k`, `Delete(k)` leaves `mpLoading`,
`failCount` and the store unchanged (its one action is the `Remove` call, and
`Delete` has no error result); hence `Delete(k)` followed by `Delete(k)`
leaves the same cache as a single `Delete(k)`. -/
theorem C15_delete_noop {σ : Type} (ops : GCache σ) (s : Sys σ) (k : Key)
    (hlaw : ∀ c, ops.Has c k = false → ops.Remove c k = c)
    (hfree : s.t.mpLoading k = none) (habsent : ops.Has s.t.cache k = false) :
    (MemCache.Delete ops k s).t = s.t ∧
    (MemCache.Delete ops k s).log = s.log ++ [.storeRemove k] ∧
    (MemCache.Delete ops k (MemCache.Delete ops k s)).t = (MemCache.Delete ops k s).t := by
  have h1 : (MemCache.Delete ops k s).t = s.t := by
    rw [Delete_eq]
    simp [MemCache._setKeyNeedReLoadIfInLoading, hfree, hlaw _ habsent]
  refine ⟨h1, rfl, ?_⟩
  rw [Delete_eq ops k (MemCache.Delete ops k s), h1]
  simp [MemCache._setKeyNeedReLoadIfInLoading, hfree, hlaw _ habsent]

/-- Witness for C15: the fresh cache over `MapStore`. -/
theorem C15_witness :
    (MemCache.Delete MapStore "k" freshSys).t = freshSys.t ∧
    (MemCache.Delete MapStore "k" freshSys).log = freshSys.log ++ [.storeRemove "k"] ∧
    (MemCache.Delete MapStore "k" (MemCache.Delete MapStore "k" freshSys)).t =
      (MemCache.Delete MapStore "k" freshSys).t :=
  C15_delete_noop MapStore freshSys "k"
    (by
      intro c hc
      funext x
      by_cases hx : x = "k"
      · subst hx
        cases h : c "k" with
        | none => simp [MapStore, h]
        | some e => simp [MapStore, h] at hc
      · simp [MapStore, Function.update_noteq hx])
    (by decide) (by decide)

/-- C16 (LoadState state machine). In every configuration reached from
`NewMemCache` by any interleaving of the steps of any `Get`, `Delete` and `Has`
calls, every value stored in `mpLoading` is 0 or 1, and whichever goroutine
`i` steps next, the entry of `k` either stays as it is (this includes 1 to 1
by a repeated `Delete`) or goes from absent to 0 (token acquisition by a `Get`
on `k`), from 0 to 1 (`Delete` of `k`), or from 0 or 1 to absent (deferred
release by a `Get` on `k`); in particular an entry is never changed from 1 to
0, and a new entry is created with value 0. -/
theorem C16_load_state_machine {σ : Type} (ops : GCache σ) (size : Int) (calls : List Call)
    (sched : List Nat) (k : Key) (i : Nat) :
    (∀ v, (Config.reached ops size calls sched).sys.t.mpLoading k = some v →
      v = 0 ∨ v = 1) ∧
    ((Config.stepAt ops (Config.reached ops size calls sched) i).sys.t.mpLoading k
        = (Config.reached ops size calls sched).sys.t.mpLoading k ∨
      ((Config.reached ops size calls sched).sys.t.mpLoading k = none ∧
        (Config.stepAt ops (Config.reached ops size calls sched) i).sys.t.mpLoading k
          = some 0 ∧
        ∃ f, (Config.reached ops size calls sched).threads[i]? =
          some (.get k f .acquire)) ∨
      ((Config.reached ops size calls sched).sys.t.mpLoading k = some 0 ∧
        (Config.stepAt ops (Config.reached ops size calls sched) i).sys.t.mpLoading k
          = some 1 ∧
        (Config.reached ops size calls sched).threads[i]? =
          some (.delete k .setNeedReLoad)) ∨
      (((Config.reached ops size calls sched).sys.t.mpLoading k = some 0 ∨
          (Config.reached ops size calls sched).sys.t.mpLoading k = some 1) ∧
        (Config.stepAt ops (Config.reached ops size calls sched) i).sys.t.mpLoading k
          = none ∧
        ∃ f r, (Config.reached ops size calls sched).threads[i]? =
          some (.get k f (.release r)))) ∧
    ((Config.reached ops size calls sched).sys.t.mpLoading k = some 1 →
      (Config.stepAt ops (Config.reached ops size calls sched) i).sys.t.mpLoading k
        ≠ some 0) ∧
    ((Config.reached ops size calls sched).sys.t.mpLoading k = none →
      (Config.stepAt ops (Config.reached ops size calls sched) i).sys.t.mpLoading k
          = none ∨
      (Config.stepAt ops (Config.reached ops size calls sched) i).sys.t.mpLoading k
          = some 0) := by
  have hv : LoadVals (Config.reached ops size calls sched) :=
    LoadVals_runSchedule ops sched _ (LoadVals_init ops size calls)
  generalize Config.reached ops size calls sched = c at hv
  have hvals : ∀ a, c.sys.t.mpLoading k ≠ none → c.sys.t.mpLoading k = some a →
      c.sys.t.mpLoading k = some 0 ∨ c.sys.t.mpLoading k = some 1 := by
    intro a _ ha
    rcases hv k a ha with rfl | rfl
    · exact Or.inl ha
    · exact Or.inr ha
  have h01 : c.sys.t.mpLoading k ≠ none →
      c.sys.t.mpLoading k = some 0 ∨ c.sys.t.mpLoading k = some 1 := by
    intro hne
    cases ha : c.sys.t.mpLoading k with
    | none => exact absurd ha hne
    | some a => rw [← ha]; exact hvals a hne ha
  refine ⟨fun v h => hv k v h, ?_, fun h1 => ?_, fun h0 => ?_⟩
  · rcases Config.stepAt_mpLoading ops c i k with h | ⟨h1, h2, hf⟩ | ⟨h1, h2, hd⟩ | ⟨h1, h2, hr⟩
    · exact Or.inl h
    · exact Or.inr (Or.inl ⟨h1, h2, hf⟩)
    · rcases h01 h1 with h0 | h1'
      · exact Or.inr (Or.inr (Or.inl ⟨h0, h2, hd⟩))
      · exact Or.inl (by rw [h2, h1'])
    · exact Or.inr (Or.inr (Or.inr ⟨h01 h1, h2, hr⟩))
  · rcases Config.stepAt_mpLoading ops c i k with h | ⟨h1', -⟩ | ⟨-, h2, -⟩ | ⟨-, h2, -⟩
    · rw [h, h1]; simp
    · rw [h1] at h1'; simp at h1'
    · rw [h2]; simp
    · rw [h2]; simp
  · rcases Config.stepAt_mpLoading ops c i k with h | ⟨-, h2, -⟩ | ⟨h1, -⟩ | ⟨h1, -⟩
    · exact Or.inl (by rw [h, h0])
    · exact Or.inr h2
    · exact absurd h0 h1
    · exact absurd h0 h1

/-- C17 (a waiter iteration is a pure poll). In every state where the store
reports `k` as not found and `mpLoading` has an entry for `k`, one iteration
of the loop of `Get` (probe, failed token request, sleep) is back at the probe
without having returned; its one action is the store `Get`, the loader is not
invoked, `mpLoading` and `failCount` are unchanged and the store is as its own
`Get` left it. A step of `Get` returns only from the probe, on a hit or a
store fault, or from the deferred release; the fill section is entered only
by a successful token request; and while the store keeps reporting `k` as not
found, `Get` run alone never returns from such a state. -/
theorem C17_waiter_poll {σ : Type} (ops : GCache σ) (s : Sys σ) (k : Key)
    (fnLoader : DATALOADER)
    (hmiss : (ops.Get s.t.cache k).1.2 = some .KeyNotFoundError)
    (hheld : s.t.mpLoading k ≠ none) :
    (∃ s1 : Sys σ,
      MemCache.Get.step ops k fnLoader .probe s = (.acquire, s1) ∧
      MemCache.Get.step ops k fnLoader .acquire s1 = (.sleep, s1) ∧
      MemCache.Get.step ops k fnLoader .sleep s1 = (.probe, s1) ∧
      s1.t.mpLoading = s.t.mpLoading ∧ s1.t.failCount = s.t.failCount ∧
      s1.t.cache = (ops.Get s.t.cache k).2 ∧
      s1.log = s.log ++ [.storeGet k] ∧
      ((ops.Get s.t.cache k).2 = s.t.cache → s1.t = s.t)) ∧
    (∀ (pc : GetPc) (s0 : Sys σ) (r : GetReturn),
      (MemCache.Get.step ops k fnLoader pc s0).1 = .done r →
      (pc = .probe ∧ (ops.Get s0.t.cache k).1.2 ≠ some .KeyNotFoundError) ∨
      pc = .release r ∨ pc = .done r) ∧
    (∀ (pc : GetPc) (s0 : Sys σ),
      (MemCache.Get.step ops k fnLoader pc s0).1.inFill = true →
      pc.inFill = true ∨ (pc = .acquire ∧ (s0.t._setKeyLoadingIfNotExist k).1 = true)) ∧
    (∀ P : σ → Prop,
      (∀ c, P c → (ops.Get c k).1.2 = some .KeyNotFoundError ∧ P (ops.Get c k).2) →
      P s.t.cache → ∀ fuel, MemCache.Get ops fuel k fnLoader s = none) := by
  refine ⟨⟨⟨{ s.t with cache := (ops.Get s.t.cache k).2 }, s.log ++ [.storeGet k]⟩,
      ?_, ?_, rfl, rfl, rfl, rfl, rfl, fun h => by simp [h]⟩, ?_, ?_,
    fun P hP h0 fuel => Get.run_waits ops k fnLoader P hP fuel .probe s h0 hheld (Or.inl rfl)⟩
  · simp [MemCache.Get.step, hmiss]
  · cases hm : s.t.mpLoading k with
    | none => exact absurd hm hheld
    | some a => simp [MemCache.Get.step, MemCache._setKeyLoadingIfNotExist, hm]
  · intro pc s0 r h
    cases pc with
    | probe =>
      left
      refine ⟨rfl, ?_⟩
      simp only [MemCache.Get.step] at h
      split at h
      · rename_i heq; rw [heq]; simp
      · rename_i e heq
        split at h
        · rename_i hne; rw [heq]; simpa using hne
        · simp at h
    | release r0 =>
      simp only [MemCache.Get.step] at h
      simp at h
      right; left; rw [h]
    | done r0 =>
      simp only [MemCache.Get.step] at h
      simp at h
      right; right; rw [h]
    | acquire =>
      simp only [MemCache.Get.step] at h
      split at h <;> simp at h
    | inLoader nFail =>
      simp only [MemCache.Get.step] at h
      split at h <;> [skip; skip; split at h] <;> simp at h
    | readLoading data d =>
      simp only [MemCache.Get.step] at h
      split at h <;> simp at h
    | _ => simp [MemCache.Get.step] at h
  · intro pc s0 h
    cases pc with
    | probe =>
      simp only [MemCache.Get.step] at h
      split at h <;> [skip; split at h] <;> simp [GetPc.inFill] at h
    | acquire =>
      right
      refine ⟨rfl, ?_⟩
      simp only [MemCache.Get.step] at h
      split at h
      · assumption
      · simp [GetPc.inFill] at h
    | sleep => simp [MemCache.Get.step, GetPc.inFill] at h
    | done r => simp [MemCache.Get.step, GetPc.inFill] at h
    | _ => left; rfl

/-- Witness for C17: the token of `"k"` is held and nobody releases it; with
100 steps of fuel `Get` has not returned. -/
theorem C17_witness :
    (MapStore.Get heldSys.t.cache "k").1.2 = some .KeyNotFoundError ∧
    heldSys.t.mpLoading "k" ≠ none ∧
    MemCache.Get MapStore 100 "k" okLoader heldSys = none :=
  ⟨by decide, by decide,
    (C17_waiter_poll MapStore heldSys "k" okLoader (by decide) (by decide)).2.2.2
      (fun c => c "k" = none)
      (fun c hc => ⟨(MapStore_miss c "k" hc).1, by rw [(MapStore_miss c "k" hc).2]; exact hc⟩)
      (by decide) 100⟩

/-- C18 (the pre-commit re-read finds the token). In every configuration
reached from `NewMemCache` by any interleaving of any calls, when a `Get` on
`k` is at its commit check (line 66), `mpLoading` has an entry for `k` with
value 0 or 1, so `_readKeyLoading(k)` returns 0 or 1 and never -1; the test
`n != 1` holds exactly when `n == 0`; the step goes on to `SetWithExpire`
exactly when the entry reads 0 and skips it exactly when the entry reads 1. -/
theorem C18_reread_finds_token {σ : Type} (ops : GCache σ) (size : Int) (calls : List Call)
    (sched : List Nat) (i : Nat) (k : Key) (f : DATALOADER) (data : Value) (d : Duration)
    (hth : (Config.reached ops size calls sched).threads[i]? =
      some (.get k f (.readLoading data d))) :
    ((Config.reached ops size calls sched).sys.t.mpLoading k = some 0 ∨
      (Config.reached ops size calls sched).sys.t.mpLoading k = some 1) ∧
    ((Config.reached ops size calls sched).sys.t._readKeyLoading k = 0 ∨
      (Config.reached ops size calls sched).sys.t._readKeyLoading k = 1) ∧
    (Config.reached ops size calls sched).sys.t._readKeyLoading k ≠ -1 ∧
    ((Config.reached ops size calls sched).sys.t._readKeyLoading k ≠ 1 ↔
      (Config.reached ops size calls sched).sys.t._readKeyLoading k = 0) ∧
    ((MemCache.Get.step ops k f (.readLoading data d)
        (Config.reached ops size calls sched).sys).1 = .commit data d ↔
      (Config.reached ops size calls sched).sys.t.mpLoading k = some 0) ∧
    ((MemCache.Get.step ops k f (.readLoading data d)
        (Config.reached ops size calls sched).sys).1 =
        .release (.ret data none) ↔
      (Config.reached ops size calls sched).sys.t.mpLoading k = some 1) := by
  have hv : LoadVals (Config.reached ops size calls sched) :=
    LoadVals_runSchedule ops sched _ (LoadVals_init ops size calls)
  have hfill : FillInv k (Config.reached ops size calls sched) :=
    FillInv_runSchedule ops k sched _ (FillInv_init ops size calls k)
  generalize Config.reached ops size calls sched = c at hv hfill hth
  have hne : c.sys.t.mpLoading k ≠ none :=
    hfill.2 i _ hth (by simp [Thread.inFill, GetPc.inFill])
  cases ha : c.sys.t.mpLoading k with
  | none => exact absurd ha hne
  | some a =>
    rcases hv k a ha with rfl | rfl
    · simp [MemCache._readKeyLoading, MemCache.Get.step, ha]
    · simp [MemCache._readKeyLoading, MemCache.Get.step, ha]

/-- Witness for C18: a lone `Get("k", okLoader)` on the fresh cache, after five steps. -/
theorem C18_witness :
    ((Config.reached MapStore 100 [.Get "k" okLoader] [0, 0, 0, 0, 0]).sys.t.mpLoading "k" =
        some 0 ∨
      (Config.reached MapStore 100 [.Get "k" okLoader] [0, 0, 0, 0, 0]).sys.t.mpLoading "k" =
        some 1) ∧
    (Config.reached MapStore 100 [.Get "k" okLoader] [0, 0, 0, 0, 0]).sys.t._readKeyLoading "k"
      ≠ -1 :=
  ⟨(C18_reread_finds_token MapStore 100 [.Get "k" okLoader] [0, 0, 0, 0, 0] 0 "k" okLoader
      (.data 7) 5 rfl).1,
    by decide⟩

/-- C19 (fail-count entries are strictly positive). In every configuration
reached from `NewMemCache` by any interleaving of any calls in which no
`_addFailCount` is applied to the largest `int` (the integers behave as
unbounded ones), every value stored in `failCount` is at least 1; hence
`_getFailCount(k)` is 0 exactly when there is no entry for `k`, and the
`nFail` read at line 54, which line 62 tests, is positive exactly when there
is an entry for `k` at that moment. -/
theorem C19_fail_counts_positive {σ : Type} (ops : GCache σ) (size : Int) (calls : List Call)
    (sched : List Nat)
    (hno : Config.noOverflow ops (Config.init ops size calls) sched = true) :
    (∀ (k : Key) (v : Int),
      (Config.reached ops size calls sched).sys.t.failCount k = some v → 1 ≤ v) ∧
    (∀ k : Key, (Config.reached ops size calls sched).sys.t._getFailCount k = 0 ↔
      (Config.reached ops size calls sched).sys.t.failCount k = none) ∧
    (∀ k : Key, 0 < (Config.reached ops size calls sched).sys.t._getFailCount k ↔
      (Config.reached ops size calls sched).sys.t.failCount k ≠ none) ∧
    (∀ (k : Key) (f : DATALOADER),
      ∃ nFail, MemCache.Get.step ops k f .getFail (Config.reached ops size calls sched).sys =
          (.callLoader nFail, (Config.reached ops size calls sched).sys) ∧
        (0 < nFail ↔ (Config.reached ops size calls sched).sys.t.failCount k ≠ none)) := by
  have hv : FailVals maxInt (Config.reached ops size calls sched) :=
    FailVals_runSchedule ops sched _ (FailVals_init ops size calls maxInt) hno
  generalize Config.reached ops size calls sched = c at hv
  have hpos : ∀ k : Key, 0 < c.sys.t._getFailCount k ↔ c.sys.t.failCount k ≠ none := by
    intro k
    cases hk : c.sys.t.failCount k with
    | none => simp [MemCache._getFailCount, hk]
    | some v =>
      have := (hv k v hk).1
      simp [MemCache._getFailCount, hk]
      omega
  refine ⟨fun k v h => (hv k v h).1, fun k => ?_, hpos, fun k f => ⟨_, rfl, hpos k⟩⟩
  cases hk : c.sys.t.failCount k with
  | none => simp [MemCache._getFailCount, hk]
  | some v =>
    have := (hv k v hk).1
    simp [MemCache._getFailCount, hk]
    omega

/-- Witness for C19: two failed fills of `"k"`, one after the other. -/
theorem C19_witness :
    Config.noOverflow MapStore (Config.init MapStore 100 [.Get "k" errLoader, .Get "k" errLoader])
      [0, 0, 0, 0, 0, 0, 0, 1, 1, 1, 1, 1, 1, 1] = true ∧
    (Config.reached MapStore 100 [.Get "k" errLoader, .Get "k" errLoader]
      [0, 0, 0, 0, 0, 0, 0, 1, 1, 1, 1, 1, 1, 1]).sys.t.failCount "k" = some 2 ∧
    (0 < (Config.reached MapStore 100 [.Get "k" errLoader, .Get "k" errLoader]
        [0, 0, 0, 0, 0, 0, 0, 1, 1, 1, 1, 1, 1, 1]).sys.t._getFailCount "k" ↔
      (Config.reached MapStore 100 [.Get "k" errLoader, .Get "k" errLoader]
        [0, 0, 0, 0, 0, 0, 0, 1, 1, 1, 1, 1, 1, 1]).sys.t.failCount "k" ≠ none) :=
  ⟨by decide, by decide,
    (C19_fail_counts_positive MapStore 100 [.Get "k" errLoader, .Get "k" errLoader]
      [0, 0, 0, 0, 0, 0, 0, 1, 1, 1, 1, 1, 1, 1] (by decide)).2.2.1 "k"⟩

end InMemCache
